import Mathlib

/-!
Verification of the git-subrepo Python implementation (lib/git-subrepo.py).

The development shallowly embeds the program's core routines:

* the descriptor file writer (update_gitrepo_file),
* the descriptor reader's join-method resolution (read_gitrepo_file),
* the history grafter (subrepo_branch_create) with its commit-walk loop,
* pull (subrepo_pull) including the merge/rebase reconciliation step,
* push (subrepo_push) including the "nothing to push" exit,
* the subrepo enumeration (get_all_subrepos / add_subrepo).

Modelling conventions, applied uniformly:

* The repository's mutable git state is a record (RepoState): the ref store is
  an association list from ref name to commit hash, the object store is the
  list of commit hashes known to exist, plus the HEAD commit, the isolated
  worktree, the working-copy .gitrepo file, and a log of performed pushes.
* Read-only answers computed by git from the immutable commit DAG or from the
  network (rev-list walks, merge-base queries, blob reads at historical
  commits, commit-tree synthesis, filter-branch rewrites, fetch results,
  merge/rebase outcomes) are supplied by an oracle record (GitOracle),
  mirroring the program's use of git as an external command backend.
* Python string truthiness is modelled by representing optional strings as
  plain strings with "" for None/unset, exactly as the program treats
  output.strip() results.
* Each `run_git` invocation that mutates state becomes an explicit state
  update; each failure that the program surfaces (self.error, i.e. a raised
  exception) becomes an error result paired with the state as it was at the
  moment of the raise, so frame properties about "no mutation before failing"
  are meaningful and not true by construction.
-/

/-- Error taxonomy of the program: each constructor corresponds to one
self.error call site (or family of generic backend failures) in the source. -/
inductive SubrepoErr
  | remoteNone
  | fetchFailed
  | emptyRepo
  | subdirNotEmpty
  | noDefaultBranch
  | ancestorNotFound (hint : String)
  | historyRewritten (commit : String)
  | backendFailed
  | worktreeDirty
  | commitRefMissing
  | upstreamNotContained
  | pullFirst
  | squashWithBranch
  | noBranchToPush
  | pushFailed
deriving DecidableEq, Repr

/-- The .gitrepo descriptor file, as read/written through git's config-file
primitives.  A field holds "" when the corresponding key is absent (git
config prints nothing and the program strips to the empty string). -/
structure Descriptor where
  remote : String
  branch : String
  commit : String
  parent : String
  former : String
  method : String
  cmdver : String
deriving DecidableEq, Repr

/-- The descriptor with every key absent. -/
def Descriptor.empty : Descriptor := ⟨"", "", "", "", "", "", ""⟩

/-- State of the isolated worktree materialized for a subrepo branch:
whether its working copy is clean and which branch it is bound to. -/
structure WorktreeState where
  clean : Bool
  branch : String
deriving DecidableEq, Repr

/-- Mutable repository state threaded through every embedded routine. -/
structure RepoState where
  /-- Current HEAD commit of the host branch; the program's
  original_head_commit, with the sentinel "none" for an unborn HEAD. -/
  head : String
  /-- Ref store: ref name to commit hash. -/
  refs : List (String × String)
  /-- Commit hashes present in the object store. -/
  objects : List String
  /-- The isolated subrepo worktree, if one exists (self.worktree). -/
  worktree : Option WorktreeState
  /-- The subdir/.gitrepo file in the working copy, none if absent. -/
  gitrepoFile : Option Descriptor
  /-- Whether the subrepo subdirectory currently has tracked files. -/
  subdirHasFiles : Bool
  /-- Commit whose tree was last read into the subdirectory ("" if none). -/
  subdirFrom : String
  /-- Log of pushes performed against the remote (remote, refspec). -/
  pushLog : List (String × String)
deriving DecidableEq, Repr

/-- Read-only oracle for answers git computes from the immutable commit DAG,
the network, and external subprocess invocations.  Each field names the
command whose output it models. -/
structure GitOracle where
  /-- git merge-base --is-ancestor a b. -/
  isAncestor : String → String → Bool
  /-- git rev-list --reverse --ancestry-path --topo-order a..b, as lines. -/
  revListAncestryPath : String → String → List String
  /-- git config --blob commit:subdir/.gitrepo subrepo.commit, "" if absent. -/
  blobSubrepoCommit : String → String
  /-- git show -s --pretty=format:%P commit, as the list of parent hashes
  (the program does a substring test on the space-joined output, which for
  full hashes coincides with list membership). -/
  rawParents : String → List String
  /-- git cat-file -e commit:subdir succeeds (the subdir has content there). -/
  subdirHasContent : String → Bool
  /-- git commit-tree for a content commit: source commit and parent list
  determine the synthesized hash (commit-tree is content-addressed). -/
  commitTree : String → List String → String
  /-- git commit-tree -m EMPTY on the canonical empty tree. -/
  emptyCommitTree : List String → String
  /-- git filter-branch --subdirectory-filter: maps the branch tip to the
  rewritten tip. -/
  filterSubdir : String → String
  /-- git filter-branch --prune-empty --tree-filter 'rm -f .gitrepo' over the
  given range: maps (range, tip) to the rewritten tip. -/
  filterStrip : String → String → String
  /-- git log -1 -G "commit =" --format=%H gitrepo: last commit whose diff to
  the descriptor touched the commit entry, "" if none. -/
  lastDescriptorChange : String
  /-- git log -1 --format=%H x^: hash of the first parent of x, "" if none. -/
  logFirstParent : String → String
  /-- git rev-list tip: all commits reachable from tip. -/
  ancestorsOf : String → List String
  /-- Result of git fetch + rev-parse FETCH_HEAD^0; none when the fetch
  command fails. -/
  fetchedHead : Option String
  /-- Whether a failed fetch's output matches "fatal: couldn't find remote
  ref" (the push command's new-upstream detection regex). -/
  fetchMissingRef : Bool
  /-- git ls-remote --symref: the upstream default head branch, none when the
  query fails or finds no head. -/
  upstreamDefaultBranch : Option String
  /-- Whether the merge/rebase of the fetched ref inside the worktree exits
  successfully (nonzero exit means conflicts). -/
  joinOk : Bool
  /-- The branch tip after a successful merge/rebase. -/
  joinTip : String
  /-- The worktree state the merge/rebase backend command leaves behind when
  it exits with conflicts. -/
  joinWorktree : WorktreeState
  /-- Whether git push to the remote succeeds. -/
  pushOk : Bool
  /-- git commit on the host branch: maps the previous HEAD to the new HEAD
  (also covering the write-tree/commit-tree/reset path for an unborn HEAD). -/
  hostCommit : String → String
  /-- git cat-file -p original_head_commit:subdir/.gitrepo parsed as a
  descriptor, none when that blob does not exist. -/
  blobDescriptorAtHead : Option Descriptor

/-- Tool version constant (VERSION in the source). -/
def VERSION : String := "0.4.9"

/-- Look a ref name up in the ref store. -/
def lookupRef (refs : List (String × String)) (k : String) : Option String :=
  match refs.find? (fun p => p.1 == k) with
  | some p => some p.2
  | none => none

/-- git update-ref: bind a ref name to a hash. -/
def setRef (refs : List (String × String)) (k v : String) : List (String × String) :=
  (k, v) :: refs.filter (fun p => p.1 != k)

/-- git update-ref -d / git branch -D: drop a ref name. -/
def eraseRef (refs : List (String × String)) (k : String) : List (String × String) :=
  refs.filter (fun p => p.1 != k)

/-- git rev-parse of a revision: a ref name resolves to its hash (trying the
name as given, then under refs/heads/), and a hash resolves to itself when
the object exists. -/
def resolveRev (σ : RepoState) (rev : String) : Option String :=
  match lookupRef σ.refs rev with
  | some s => some s
  | none =>
    match lookupRef σ.refs ("refs/heads/" ++ rev) with
    | some s => some s
    | none => if σ.objects.contains rev then some rev else none

/-- git_rev_exists: git rev-list rev -1 succeeds ("" is rejected up front). -/
def revExistsB (σ : RepoState) (rev : String) : Bool :=
  rev != "" && (resolveRev σ rev).isSome

/-- git_branch_exists: git_rev_exists on refs/heads/branch. -/
def branchExistsB (σ : RepoState) (b : String) : Bool :=
  revExistsB σ ("refs/heads/" ++ b)

/-- git_commit_in_rev_list: commit occurs in the output of git rev-list
list_head (an empty commit string is rejected up front; the source's
substring test on newline-separated full hashes coincides with membership). -/
def commitInRevListB (env : GitOracle) (σ : RepoState) (commit listHead : String) : Bool :=
  commit != "" &&
    match resolveRev σ listHead with
    | some tip => (env.ancestorsOf tip).contains commit
    | none => false

/-- git_make_ref: rev-parse the target then update-ref; an unresolvable
target makes the update-ref invocation fail, which the program surfaces. -/
def git_make_ref (σ : RepoState) (ref target : String) : Option SubrepoErr × RepoState :=
  match resolveRev σ target with
  | some sha => (none, { σ with refs := setRef σ.refs ref sha })
  | none => (some .backendFailed, σ)

/-- git_remove_worktree: nothing to do without a worktree; otherwise assert
the worktree copy is clean (error if it has unsaved changes), then remove
it. -/
def git_remove_worktree (σ : RepoState) : Option SubrepoErr × RepoState :=
  match σ.worktree with
  | none => (none, σ)
  | some w => if w.clean then (none, { σ with worktree := none }) else (some .worktreeDirty, σ)

/-- git_delete_branch: remove the worktree, then delete the branch ref
(the branch -D failure for a missing branch is swallowed, FAIL=False). -/
def git_delete_branch (σ : RepoState) (b : String) : Option SubrepoErr × RepoState :=
  match git_remove_worktree σ with
  | (some e, σ1) => (some e, σ1)
  | (none, σ1) => (none, { σ1 with refs := eraseRef σ1.refs ("refs/heads/" ++ b) })

/-- Per-invocation command context: parsed flags, descriptor-derived values
and the four well-known ref names (self.refs_subrepo_*), mirroring the
program's instance attributes.  Optional strings use "" for unset. -/
structure Ctx where
  command : String
  subdir : String
  subref : String
  remote : String
  subrepoBranch : String
  subrepoCommit : String
  subrepoParent : String
  joinMethod : String
  force : Bool
  squash : Bool
  updateWanted : Bool
  overrideRemote : String
  overrideBranch : String
  /-- The push command's optional explicit branch argument. -/
  branchArg : String
  refsFetch : String
  refsBranch : String
  refsCommit : String
  refsPush : String
deriving DecidableEq, Repr

/-- Which descriptor fields a run of update_gitrepo_file actually wrote
(one flag per git config --file set invocation). -/
structure WriteLog where
  remote : Bool
  branch : Bool
  commit : Bool
  parent : Bool
  method : Bool
  cmdver : Bool
deriving DecidableEq, Repr

/-- The descriptor update_gitrepo_file starts from, and whether this is the
first write of the file: the working-copy file if present; else the blob at
the original head commit if that exists (recreation, not a first write);
else a fresh file with only the boilerplate header (newfile). -/
def baseDescriptor (env : GitOracle) (σ : RepoState) : Descriptor × Bool :=
  match σ.gitrepoFile with
  | some d => (d, false)
  | none =>
    match env.blobDescriptorAtHead with
    | some d => (d, false)
    | none => (Descriptor.empty, true)

/-- update_gitrepo_file: rewrite descriptor fields.  remote/branch are
rewritten when this is a new file, or when --update was given together with
the corresponding override, or implicitly for the push and clone commands
when the corresponding override was given.  commit is written only when an
upstream head commit is known.  parent is written only when the resolved
hash of the commit ref being recorded equals the upstream head commit (the
rev-parse of an unresolvable ref aborts the program at that point, with the
earlier field writes already performed).  method and cmdver are always
written. -/
def update_gitrepo_file (env : GitOracle) (ctx : Ctx) (σ : RepoState)
    (upstreamHead commitRef : String) :
    Option SubrepoErr × RepoState × WriteLog :=
  let base := (baseDescriptor env σ).1
  let newfile := (baseDescriptor env σ).2
  let wR := newfile || (ctx.updateWanted && ctx.overrideRemote != "") ||
    ((ctx.command == "push" || ctx.command == "clone") && ctx.overrideRemote != "")
  let wB := newfile || (ctx.updateWanted && ctx.overrideBranch != "") ||
    ((ctx.command == "push" || ctx.command == "clone") && ctx.overrideBranch != "")
  let wC := upstreamHead != ""
  let d3 : Descriptor :=
    { remote := if wR then ctx.remote else base.remote,
      branch := if wB then ctx.subrepoBranch else base.branch,
      commit := if wC then upstreamHead else base.commit,
      parent := base.parent, former := base.former,
      method := base.method, cmdver := base.cmdver }
  if upstreamHead != "" && commitRef != "" then
    match resolveRev σ commitRef with
    | none =>
      (some .backendFailed, { σ with gitrepoFile := some d3 },
        ⟨wR, wB, wC, false, false, false⟩)
    | some sha =>
      let wP := upstreamHead == sha
      let d5 : Descriptor :=
        { d3 with parent := if wP then σ.head else base.parent,
                  method := if ctx.joinMethod != "" then ctx.joinMethod else "merge",
                  cmdver := VERSION }
      (none, { σ with gitrepoFile := some d5 }, ⟨wR, wB, wC, wP, true, true⟩)
  else
    let d5 : Descriptor :=
      { d3 with method := if ctx.joinMethod != "" then ctx.joinMethod else "merge",
                cmdver := VERSION }
    (none, { σ with gitrepoFile := some d5 }, ⟨wR, wB, wC, false, true, true⟩)

/-- Output of git config --file gitrepo subrepo.method as the program sees
it after stripping: the stored value when the key is present, "" when the
lookup fails (read_gitrepo_file disables FAIL around it). -/
def configOutput (v : Option String) : String :=
  match v with
  | some s => s
  | none => ""

/-- read_gitrepo_file's join-method resolution: the method is rebase exactly
when the read value is the string "rebase"; every other value, including an
absent key, resolves to merge. -/
def readJoinMethod (v : Option String) : String :=
  if configOutput v == "rebase" then "rebase" else "merge"

/-- One commit synthesized by the incremental graft loop: the walked source
commit, the .gitrepo-recorded upstream commit read from it, the parent list
handed to commit-tree, and the resulting hash. -/
structure SynthCommit where
  src : String
  grc : String
  parents : List String
  sha : String
deriving DecidableEq, Repr

/-- Loop-carried variables of subrepo_branch_create's commit walk
(prev_commit, ancestor, first_gitrepo_commit, last_gitrepo_commit), with ""
standing for Python None. -/
structure LoopAcc where
  prev : String
  ancestor : String
  firstG : String
  lastG : String
deriving DecidableEq, Repr

/-- Initial loop state: all four variables unset. -/
def LoopAcc.init : LoopAcc := ⟨"", "", "", ""⟩

/-- One iteration of the incremental graft walk over a single commit:
skip it when its historical .gitrepo records no commit; skip it when an
ancestor is chosen and this commit is not its direct child; otherwise run
the rebase detection against the fetched ref, build the parent list
(first-parent from prev_commit, second-parent from the recorded upstream
commit on the first synthesized commit and, under merge, on upstream
changes), and synthesize a content commit or an EMPTY placeholder. -/
def branchStep (env : GitOracle) (ctx : Ctx) (σ : RepoState)
    (acc : LoopAcc) (syn : List SynthCommit) (commit : String) :
    Except SubrepoErr (LoopAcc × List SynthCommit) :=
  let g := env.blobSubrepoCommit commit
  if g == "" then .ok (acc, syn)
  else if acc.ancestor != "" && !((env.rawParents commit).contains acc.ancestor) then
    .ok (acc, syn)
  else
    if revExistsB σ ctx.refsFetch && !(commitInRevListB env σ g ctx.refsFetch) then
      .error (.historyRewritten g)
    else
      -- The sequential assignments (ancestor := commit; first/second parent
      -- selection; first_gitrepo_commit and last_gitrepo_commit updates) are
      -- transcribed fieldwise.  The update of first_gitrepo_commit does not
      -- touch last_gitrepo_commit, so the second-parent overwrite compares
      -- against the unchanged last_gitrepo_commit.
      let parents : List String :=
        (if acc.prev == "" then [] else [acc.prev]) ++
          (if ctx.joinMethod != "rebase" && g != acc.lastG then [g]
           else if acc.firstG == "" then [g] else [])
      let sha :=
        if env.subdirHasContent commit then env.commitTree commit parents
        else env.emptyCommitTree parents
      .ok ({ prev := sha, ancestor := commit,
             firstG := if acc.firstG == "" then g else acc.firstG,
             lastG := if ctx.joinMethod != "rebase" && g != acc.lastG then g else acc.lastG },
           syn ++ [⟨commit, g, parents, sha⟩])

/-- The incremental graft walk over the whole ancestry-path commit list. -/
def branchLoop (env : GitOracle) (ctx : Ctx) (σ : RepoState) :
    LoopAcc → List SynthCommit → List String → Except SubrepoErr (LoopAcc × List SynthCommit)
  | acc, syn, [] => .ok (acc, syn)
  | acc, syn, c :: cs =>
    match branchStep env ctx σ acc syn c with
    | .error e => .error e
    | .ok (acc2, syn2) => branchLoop env ctx σ acc2 syn2 cs

/-- The recovery hint embedded in the ancestor-not-found error: the first
parent of the last commit whose change to the descriptor file touched the
commit entry ("" when no such commit exists). -/
def ancestorHint (env : GitOracle) : String :=
  let t := env.lastDescriptorChange
  if t != "" then env.logFirstParent t else t

/-- Result of the graft routine: success carries the commits synthesized by
the incremental walk (empty for the filter-branch mode and for the
early-return no-op). -/
inductive BcRes
  | ok (synth : List SynthCommit)
  | err (e : SubrepoErr)
deriving DecidableEq, Repr

/-- Common tail of subrepo_branch_create: strip the .gitrepo file from the
branch by a filter-branch over first-gitrepo-commit..branch (the whole
branch when no first upstream commit is known), materialize the worktree,
and create the durable branch ref. -/
def finishBranch (env : GitOracle) (ctx : Ctx) (σ : RepoState)
    (branch firstG : String) (syn : List SynthCommit) : BcRes × RepoState :=
  match git_make_ref
      { σ with
        refs := setRef σ.refs ("refs/heads/" ++ branch)
          (env.filterStrip (if firstG != "" then firstG ++ ".." ++ branch else branch)
            ((lookupRef σ.refs ("refs/heads/" ++ branch)).getD "")),
        worktree := some ⟨true, branch⟩ } ctx.refsBranch branch with
  | (none, σ3) => (.ok syn, σ3)
  | (some e, σ3) => (.err e, σ3)

/-- subrepo_branch_create: no-op when the target branch already exists.
With a sync-parent: check the parent is an ancestor of HEAD (else fail with
the ancestor-not-found error and its recovery hint), walk the ancestry path
from parent to HEAD synthesizing the graft commits, then create the branch
at the last synthesized commit.  Without a sync-parent: branch from HEAD
and apply the subdirectory filter.  Both modes end with finishBranch. -/
def subrepo_branch_create (env : GitOracle) (ctx : Ctx) (σ : RepoState)
    (branch : String) : BcRes × RepoState :=
  if branchExistsB σ branch then (.ok [], σ)
  else if ctx.subrepoParent != "" then
    if !(env.isAncestor ctx.subrepoParent σ.head) then
      (.err (.ancestorNotFound (ancestorHint env)), σ)
    else
      match branchLoop env ctx σ LoopAcc.init []
          (env.revListAncestryPath ctx.subrepoParent σ.head) with
      | .error e => (.err e, σ)
      | .ok (acc, syn) =>
        if acc.prev == "" then (.err .backendFailed, σ)
        else
          finishBranch env ctx
            { σ with refs := setRef σ.refs ("refs/heads/" ++ branch) acc.prev }
            branch acc.firstG syn
  else
    finishBranch env ctx
      { σ with refs := (setRef (setRef σ.refs ("refs/heads/" ++ branch) σ.head)
          ("refs/heads/" ++ branch) (env.filterSubdir σ.head)) }
      branch "" []

/-- Expected parent list of one synthesized commit, as the specification
states it: first-parent is the previously synthesized commit (absent on the
first), second-parent is the recorded upstream commit on the first
synthesized commit and, under merge, whenever the recorded upstream commit
differs from the previous synthesized commit's. -/
def expectedParents (method prevSha prevG : String) (first : Bool) (g : String) : List String :=
  (if first then [] else [prevSha]) ++
    (if first then [g]
     else if method != "rebase" && g != prevG then [g] else [])

/-- Check the expected-parent property along a synthesized commit list,
threading the previous commit's hash and recorded upstream commit. -/
def parentsGo (method : String) : String → String → Bool → List SynthCommit → Bool
  | _, _, _, [] => true
  | p, g0, first, s :: rest =>
    (s.parents == expectedParents method p g0 first s.grc) &&
      parentsGo method s.sha s.grc false rest

/-- The expected-parent property for a whole synthesized commit list. -/
def parentsOk (method : String) (syn : List SynthCommit) : Bool :=
  parentsGo method "" "" true syn

/-- Final (prevSha, prevG, first) triple after walking a synthesized list,
used to state the snoc lemma for parentsGo. -/
def tailState : String → String → Bool → List SynthCommit → String × String × Bool
  | p, g, f, [] => (p, g, f)
  | _, _, _, s :: rest => tailState s.sha s.grc false rest

/-- Result of subrepo_fetch: the remote-is-none error, a failed fetch
command (with the new-upstream regex verdict on its output), or the fetched
upstream head. -/
inductive FetchRes
  | ok (u : String)
  | failed (missingRef : Bool)
  | err (e : SubrepoErr)
deriving DecidableEq, Repr

/-- subrepo_fetch: refuse when the remote is the sentinel none; run the
fetch (whose failure is reported to the caller, who decides fatality by its
ambient FAIL flag); on success record the fetched head in the fetch ref and
the object store. -/
def subrepo_fetch (env : GitOracle) (ctx : Ctx) (σ : RepoState) : FetchRes × RepoState :=
  if ctx.remote == "none" then (.err .remoteNone, σ)
  else
    match env.fetchedHead with
    | none => (.failed env.fetchMissingRef, σ)
    | some u =>
      (.ok u, { σ with refs := setRef σ.refs ctx.refsFetch u, objects := u :: σ.objects })

/-- Result of do_subrepo_commit. -/
inductive CommitRes
  | ok
  | err (e : SubrepoErr)
deriving DecidableEq, Repr

/-- do_subrepo_commit: verify the commit ref exists and (unless forced)
contains the upstream head; replace the subdirectory content by a prefixed
read-tree from the ref; rewrite the descriptor; commit to the host branch;
discard the isolated worktree after asserting it is clean; record the
durable commit ref. -/
def do_subrepo_commit (env : GitOracle) (ctx : Ctx) (σ : RepoState)
    (commitRef upstreamHead : String) : CommitRes × RepoState :=
  if !(revExistsB σ commitRef) then (.err .commitRefMissing, σ)
  else if !ctx.force && !(commitInRevListB env σ upstreamHead commitRef) then
    (.err .upstreamNotContained, σ)
  else
    let σ1 : RepoState :=
      if σ.subdirHasFiles then { σ with subdirHasFiles := false } else σ
    match resolveRev σ1 commitRef with
    | none => (.err .backendFailed, σ1)
    | some sha =>
      let σ2 : RepoState := { σ1 with subdirHasFiles := true, subdirFrom := sha }
      match update_gitrepo_file env ctx σ2 upstreamHead commitRef with
      | (some e, σ3, _) => (.err e, σ3)
      | (none, σ3, _) =>
        let σ4 : RepoState := { σ3 with head := env.hostCommit σ3.head }
        match git_remove_worktree σ4 with
        | (some e, σ5) => (.err e, σ5)
        | (none, σ5) =>
          match git_make_ref σ5 ctx.refsCommit commitRef with
          | (some e, σ6) => (.err e, σ6)
          | (none, σ6) => (.ok, σ6)

/-- Result of subrepo_clone. -/
inductive CloneRes
  | ok
  | upToDate
  | err (e : SubrepoErr)
deriving DecidableEq, Repr

/-- Tail of subrepo_clone: make the clone directory and commit the fetched
upstream content (subrepo_commit_ref is the upstream head itself). -/
def clone_commit (env : GitOracle) (ctx : Ctx) (σ : RepoState) (u : String) :
    CloneRes × RepoState :=
  match do_subrepo_commit env ctx σ u u with
  | (.err e, σ1) => (.err e, σ1)
  | (.ok, σ1) => (.ok, σ1)

/-- subrepo_clone: refuse on an unborn HEAD; force counts only when the
descriptor file exists (a reclone).  Reclone: fetch, stop as up to date when
the fetched head equals the recorded commit, else remove the old subdir,
determine the upstream head branch when no explicit branch override was
given, and commit.  Fresh clone: require an empty subdir, determine the
branch when unset, fetch and commit. -/
def subrepo_clone (env : GitOracle) (ctx : Ctx) (σ : RepoState) : CloneRes × RepoState :=
  if σ.head == "none" then (.err .emptyRepo, σ)
  else
    let reclone := ctx.force && σ.gitrepoFile.isSome
    if reclone then
      match subrepo_fetch env ctx σ with
      | (.err e, σ1) => (.err e, σ1)
      | (.failed _, σ1) => (.err .fetchFailed, σ1)
      | (.ok u, σ1) =>
        let subCommit := match σ1.gitrepoFile with
          | some d => d.commit
          | none => ctx.subrepoCommit
        if u == subCommit then (.upToDate, σ1)
        else
          let σ2 : RepoState := { σ1 with subdirHasFiles := false }
          if ctx.overrideBranch == "" then
            match env.upstreamDefaultBranch with
            | none => (.err .noDefaultBranch, σ2)
            | some br =>
              clone_commit env { ctx with subrepoBranch := br, overrideBranch := br } σ2 u
          else clone_commit env ctx σ2 u
    else
      if σ.subdirHasFiles then (.err .subdirNotEmpty, σ)
      else if ctx.subrepoBranch == "" then
        match env.upstreamDefaultBranch with
        | none => (.err .noDefaultBranch, σ)
        | some br =>
          let ctx2 := { ctx with subrepoBranch := br }
          match subrepo_fetch env ctx2 σ with
          | (.err e, σ1) => (.err e, σ1)
          | (.failed _, σ1) => (.err .fetchFailed, σ1)
          | (.ok u, σ1) => clone_commit env ctx2 σ1 u
      else
        match subrepo_fetch env ctx σ with
        | (.err e, σ1) => (.err e, σ1)
        | (.failed _, σ1) => (.err .fetchFailed, σ1)
        | (.ok u, σ1) => clone_commit env ctx σ1 u

/-- Result of the pull pipeline's preparatory phase. -/
inductive GraftPhaseRes
  | proceed (u : String)
  | upToDate
  | cloneDone
  | err (e : SubrepoErr)
deriving DecidableEq, Repr

/-- Result of subrepo_pull. -/
inductive PullRes
  | ok
  | upToDate
  | conflicts
  | err (e : SubrepoErr)
deriving DecidableEq, Repr

/-- Phase of subrepo_pull before the reconciliation step: fetch (a fetch
failure is fatal here, FAIL is on), hand a forced pull over to the clone
routine, stop when already up to date (fetched head equals the recorded
commit and no --update), else delete the stale subrepo branch and run the
graft. -/
def pull_graft_phase (env : GitOracle) (ctx : Ctx) (σ : RepoState) :
    GraftPhaseRes × RepoState :=
  match subrepo_fetch env ctx σ with
  | (.err e, σ1) => (.err e, σ1)
  | (.failed _, σ1) => (.err .fetchFailed, σ1)
  | (.ok u, σ1) =>
    if ctx.force then
      match subrepo_clone env ctx σ1 with
      | (.err e, σ2) => (.err e, σ2)
      | (_, σ2) => (.cloneDone, σ2)
    else if u == ctx.subrepoCommit && !ctx.updateWanted then (.upToDate, σ1)
    else
      match git_delete_branch σ1 ("subrepo/" ++ ctx.subref) with
      | (some e, σ2) => (.err e, σ2)
      | (none, σ2) =>
        match subrepo_branch_create env ctx σ2 ("subrepo/" ++ ctx.subref) with
        | (.err e, σ3) => (.err e, σ3)
        | (.ok _, σ3) => (.proceed u, σ3)

/-- Reconciliation and publication phase of subrepo_pull: run the
merge/rebase of the fetched ref inside the worktree (rebase when the join
method is rebase, merge otherwise; the oracle models whichever command
runs).  On a nonzero exit: report conflicts, leaving the branch and the
worktree exactly as the backend left them and performing no further ref
update.  On success: the branch tip advances, the durable branch ref is
recorded, and do_subrepo_commit folds the content into the host branch. -/
def pull_join_phase (env : GitOracle) (ctx : Ctx) (σ : RepoState) (u : String) :
    PullRes × RepoState :=
  if !env.joinOk then (.conflicts, { σ with worktree := some env.joinWorktree })
  else
    let b := "subrepo/" ++ ctx.subref
    let σ1 : RepoState :=
      { σ with refs := setRef σ.refs ("refs/heads/" ++ b) env.joinTip,
               worktree := some ⟨true, b⟩ }
    match git_make_ref σ1 ctx.refsBranch b with
    | (some e, σ2) => (.err e, σ2)
    | (none, σ2) =>
      match do_subrepo_commit env ctx σ2 b u with
      | (.err e, σ3) => (.err e, σ3)
      | (.ok, σ3) => (.ok, σ3)

/-- subrepo_pull: the graft phase followed by the reconciliation phase. -/
def subrepo_pull (env : GitOracle) (ctx : Ctx) (σ : RepoState) : PullRes × RepoState :=
  match pull_graft_phase env ctx σ with
  | (.err e, σ1) => (.err e, σ1)
  | (.upToDate, σ1) => (.upToDate, σ1)
  | (.cloneDone, σ1) => (.ok, σ1)
  | (.proceed u, σ1) => pull_join_phase env ctx σ1 u

/-- Result of subrepo_push. -/
inductive PushRes
  | ok
  | nothingToPush
  | conflicts
  | err (e : SubrepoErr)
deriving DecidableEq, Repr

/-- Comparison and publication phase of subrepo_push: require the branch to
exist; resolve its tip; when not pushing to a new upstream and the tip
equals the upstream head, delete the transient branch (if this run created
it) and report that there is nothing to push; otherwise (unless forced or a
new upstream) require the branch to contain the upstream head, push, record
the push ref, delete the transient branch, rewrite the descriptor to the
new upstream head and commit it. -/
def push_compare (env : GitOracle) (ctx : Ctx) (σ : RepoState)
    (b upstream : String) (newUpstream branchCreated : Bool) : PushRes × RepoState :=
  if !(branchExistsB σ b) then (.err .noBranchToPush, σ)
  else
    let newUp := match resolveRev σ b with
      | some s => s
      | none => ""
    if !newUpstream && upstream == newUp then
      if branchCreated then
        match git_delete_branch σ b with
        | (some e, σ1) => (.err e, σ1)
        | (none, σ1) => (.nothingToPush, σ1)
      else (.nothingToPush, σ)
    else if !ctx.force && !newUpstream && !(commitInRevListB env σ upstream b) then
      (.err .upstreamNotContained, σ)
    else if !env.pushOk then (.err .pushFailed, σ)
    else
      let σp : RepoState :=
        { σ with pushLog := σ.pushLog ++ [(ctx.remote, b ++ ":" ++ ctx.subrepoBranch)] }
      match git_make_ref σp ctx.refsPush b with
      | (some e, σ2) => (.err e, σ2)
      | (none, σ2) =>
        match (if branchCreated then git_delete_branch σ2 b else (none, σ2)) with
        | (some e, σ3) => (.err e, σ3)
        | (none, σ3) =>
          match update_gitrepo_file env ctx σ3 newUp newUp with
          | (some e, σ4, _) => (.err e, σ4)
          | (none, σ4, _) => (.ok, { σ4 with head := env.hostCommit σ4.head })

/-- Middle of subrepo_push when no explicit branch argument was given:
delete the stale transient branch, graft (with the parent forced to HEAD^
under --squash), and when the join method is rebase run the rebase against
the fetched ref (conflicts abort as in pull). -/
def push_rest (env : GitOracle) (ctx : Ctx) (σ : RepoState)
    (upstream : String) (newUpstream : Bool) : PushRes × RepoState :=
  let b := "subrepo/" ++ ctx.subref
  match git_delete_branch σ b with
  | (some e, σ1) => (.err e, σ1)
  | (none, σ1) =>
    let ctx2 := if ctx.squash then { ctx with subrepoParent := "HEAD^" } else ctx
    match subrepo_branch_create env ctx2 σ1 b with
    | (.err e, σ2) => (.err e, σ2)
    | (.ok _, σ2) =>
      if ctx2.joinMethod == "rebase" then
        if !env.joinOk then (.conflicts, { σ2 with worktree := some env.joinWorktree })
        else
          let σ3 : RepoState :=
            { σ2 with refs := setRef σ2.refs ("refs/heads/" ++ b) env.joinTip,
                      worktree := some ⟨true, b⟩ }
          push_compare env ctx σ3 b upstream newUpstream true
      else push_compare env ctx σ2 b upstream newUpstream true

/-- subrepo_push: without an explicit branch argument, fetch with failures
handed back (FAIL off): a missing remote ref means a first push to a new
upstream, any other fetch failure is fatal; with a successful fetch and no
--force, a fetched head different from the recorded commit demands a pull
first.  Then build the transient branch and compare/publish.  With an
explicit branch argument, --squash is rejected and the given branch is
compared directly (no fetch, so no upstream head is known). -/
def subrepo_push (env : GitOracle) (ctx : Ctx) (σ : RepoState) : PushRes × RepoState :=
  if ctx.branchArg == "" then
    match subrepo_fetch env ctx σ with
    | (.err e, σ1) => (.err e, σ1)
    | (.failed missing, σ1) =>
      if missing then push_rest env ctx σ1 "" true
      else (.err .fetchFailed, σ1)
    | (.ok u, σ1) =>
      if !ctx.force && u != ctx.subrepoCommit then (.err .pullFirst, σ1)
      else push_rest env ctx σ1 u false
  else
    if ctx.squash then (.err .squashWithBranch, σ)
    else push_compare env ctx σ ctx.branchArg "" false false

/-- Python string comparison (code-point lexicographic), on char lists. -/
def lexLe : List Char → List Char → Bool
  | [], _ => true
  | _ :: _, [] => false
  | a :: as, b :: bs => if a < b then true else if a = b then lexLe as bs else false

/-- Python string less-or-equal, as used by list.sort on paths. -/
def pyLe (a b : String) : Bool := lexLe a.data b.data

/-- Python str.endswith. -/
def pyEndsWith (s t : String) : Bool := t.data.isSuffixOf s.data

/-- Python str.startswith. -/
def pyStartsWith (s t : String) : Bool := t.data.isPrefixOf s.data

/-- Python line[:-9], dropping the 9 characters of "/.gitrepo". -/
def pyDropLast9 (s : String) : String := ⟨s.data.take (s.data.length - 9)⟩

/-- get_all_subrepos' path collection: the tracked paths (git ls-files
lines) ending in /.gitrepo, with that suffix stripped, sorted (list.sort
modelled by insertion sort, which computes the same sorted order). -/
def gitrepoPaths (files : List String) : List String :=
  List.insertionSort (fun a b => pyLe a b = true)
    ((files.filter (fun l => pyEndsWith l "/.gitrepo")).map pyDropLast9)

/-- add_subrepo: append the path, except that without the --ALL flag a path
nested inside an already-listed subrepo's directory is skipped. -/
def add_subrepo (allFlag : Bool) (subrepos : List String) (path : String) : List String :=
  if !allFlag && subrepos.any (fun e => pyStartsWith path (e ++ "/")) then subrepos
  else subrepos ++ [path]

/-- get_all_subrepos: fold add_subrepo over the sorted path list. -/
def get_all_subrepos (allFlag : Bool) (files : List String) : List String :=
  (gitrepoPaths files).foldl (add_subrepo allFlag) []

/-- Default oracle for concrete instantiations. -/
def oracle0 : GitOracle where
  isAncestor := fun _ _ => false
  revListAncestryPath := fun _ _ => []
  blobSubrepoCommit := fun _ => ""
  rawParents := fun _ => []
  subdirHasContent := fun _ => false
  commitTree := fun _ _ => "aaa1"
  emptyCommitTree := fun _ => "bbb1"
  filterSubdir := fun t => t
  filterStrip := fun _ t => t
  lastDescriptorChange := ""
  logFirstParent := fun _ => ""
  ancestorsOf := fun _ => []
  fetchedHead := none
  fetchMissingRef := false
  upstreamDefaultBranch := none
  joinOk := true
  joinTip := "jt1"
  joinWorktree := ⟨false, ""⟩
  pushOk := true
  hostCommit := fun _ => "hc1"
  blobDescriptorAtHead := none

/-- Default context for concrete instantiations. -/
def ctx0 : Ctx where
  command := "pull"
  subdir := "x"
  subref := "x"
  remote := "r1"
  subrepoBranch := "master"
  subrepoCommit := ""
  subrepoParent := ""
  joinMethod := "merge"
  force := false
  squash := false
  updateWanted := false
  overrideRemote := ""
  overrideBranch := ""
  branchArg := ""
  refsFetch := "refs/subrepo/x/fetch"
  refsBranch := "refs/subrepo/x/branch"
  refsCommit := "refs/subrepo/x/commit"
  refsPush := "refs/subrepo/x/push"

/-- Default repository state for concrete instantiations. -/
def state0 : RepoState where
  head := "h1"
  refs := []
  objects := []
  worktree := none
  gitrepoFile := none
  subdirHasFiles := false
  subdirFrom := ""
  pushLog := []

/-- Rebase-detection instance: the walked commit c1 records upstream commit
g1; the fetch ref exists and points at f1 whose history does not contain
g1; g1 nevertheless exists in the object store. -/
def envC1 : GitOracle := { oracle0 with
  isAncestor := fun _ _ => true
  revListAncestryPath := fun _ _ => ["c1"]
  blobSubrepoCommit := fun c => if c == "c1" then "g1" else ""
  ancestorsOf := fun t => if t == "f1" then ["f1"] else [] }

/-- Context for the rebase-detection instance. -/
def ctxC1 : Ctx := { ctx0 with subrepoParent := "p0" }

/-- State for the rebase-detection instance. -/
def stC1 : RepoState := { state0 with
  refs := [("refs/subrepo/x/fetch", "f1")]
  objects := ["g1"] }

/-- Ancestor-check instance: the sync parent p0 is not an ancestor of HEAD;
the last commit changing the descriptor's commit entry is t1, whose first
parent is t0. -/
def envC2 : GitOracle := { oracle0 with
  lastDescriptorChange := "t1"
  logFirstParent := fun c => if c == "t1" then "t0" else "" }

/-- Context for the ancestor-check instance. -/
def ctxC2 : Ctx := { ctx0 with subrepoParent := "p0" }

/-- Incremental-graft instance for the parent-list property: three walked
commits c1 c2 c3 recording upstream commits u1 u2 u2, a linear child chain,
all with subdir content; no fetch ref exists, so the rebase check is
skipped. -/
def envC3 : GitOracle := { oracle0 with
  isAncestor := fun _ _ => true
  revListAncestryPath := fun _ _ => ["c1", "c2", "c3"]
  blobSubrepoCommit := fun c =>
    if c == "c1" then "u1" else if c == "c2" then "u2" else if c == "c3" then "u2" else ""
  rawParents := fun c => if c == "c2" then ["c1"] else if c == "c3" then ["c2"] else []
  subdirHasContent := fun _ => true }

/-- Context for the parent-list instance. -/
def ctxC3 : Ctx := { ctx0 with subrepoParent := "p0" }

/-- The commits the parent-list instance synthesizes. -/
def synC3 : List SynthCommit :=
  [⟨"c1", "u1", ["u1"], "aaa1"⟩, ⟨"c2", "u2", ["aaa1", "u2"], "aaa1"⟩,
   ⟨"c3", "u2", ["aaa1"], "aaa1"⟩]

/-- Pull-conflict instance: the fetch succeeds with u1, the recorded commit
differs (so the pull is not up to date), the graft runs in filter-branch
mode, and the merge exits with conflicts leaving a dirty worktree. -/
def envC4 : GitOracle := { oracle0 with
  fetchedHead := some "u1"
  filterSubdir := fun _ => "t1"
  filterStrip := fun _ _ => "t2"
  joinOk := false
  joinWorktree := ⟨false, "subrepo/x"⟩ }

/-- Context for the pull-conflict instance. -/
def ctxC4 : Ctx := { ctx0 with subrepoCommit := "u0" }

/-- The state the pull-conflict instance reaches after its graft phase. -/
def stC4' : RepoState := (pull_graft_phase envC4 ctxC4 state0).2

/-- Branch-exists instance: the target graft branch already exists. -/
def stC5 : RepoState := { state0 with refs := [("refs/heads/subrepo/x", "t1")] }

/-- Descriptor-update instance: the working copy has a descriptor with a
recorded parent, and the commit ref resolves (through the object store) to
the upstream head. -/
def stC6 : RepoState := { state0 with
  objects := ["u1"]
  gitrepoFile := some { Descriptor.empty with parent := "pp" } }

/-- Push nothing-to-push instance: the fetch returns u1 which equals the
recorded commit; the graft (filter-branch mode) produces a branch tip that
again equals u1, so there is nothing to push. -/
def envC8 : GitOracle := { oracle0 with
  fetchedHead := some "u1"
  filterSubdir := fun _ => "t1"
  filterStrip := fun _ _ => "u1" }

/-- Context for the nothing-to-push instance. -/
def ctxC8 : Ctx := { ctx0 with command := "push", subrepoCommit := "u1" }

/-- Tracked-file list for the enumeration instance: two subrepos a and c
with a third nested inside a. -/
def filesC10 : List String :=
  ["c/.gitrepo", "a/.gitrepo", "a/b/.gitrepo", "a/n.txt"]

/-- Looking up in a cons ref store inspects the head binding first. -/
theorem lookupRef_cons (a : String × String) (l : List (String × String)) (k : String) :
    lookupRef (a :: l) k = if (a.1 == k) = true then some a.2 else lookupRef l k := by
  unfold lookupRef
  rw [List.find?_cons]
  by_cases h : (a.1 == k) = true <;> simp [h]

/-- Dropping bindings for another key does not change a lookup. -/
theorem lookupRef_filter_ne (l : List (String × String)) (k k2 : String) (h : k2 ≠ k) :
    lookupRef (l.filter (fun p => p.1 != k)) k2 = lookupRef l k2 := by
  induction l with
  | nil => rfl
  | cons a l ih =>
    rw [List.filter_cons]
    by_cases ha : (a.1 != k) = true
    · rw [if_pos ha, lookupRef_cons, lookupRef_cons, ih]
    · rw [if_neg ha, ih, lookupRef_cons]
      have ha2 : a.1 = k := by
        rcases eq_or_ne a.1 k with h2 | h2
        · exact h2
        · exact absurd (by simp [bne_iff_ne, h2]) ha
      have : (a.1 == k2) = false := by
        rw [beq_eq_false_iff_ne, ha2]
        exact fun hh => h hh.symm
      rw [this]
      simp

/-- Dropping bindings for a key makes its lookup fail. -/
theorem lookupRef_filter_self (l : List (String × String)) (k : String) :
    lookupRef (l.filter (fun p => p.1 != k)) k = none := by
  induction l with
  | nil => rfl
  | cons a l ih =>
    rw [List.filter_cons]
    by_cases ha : (a.1 != k) = true
    · rw [if_pos ha, lookupRef_cons]
      have : (a.1 == k) = false := by
        rw [beq_eq_false_iff_ne]
        exact bne_iff_ne.mp ha
      rw [this]
      simpa using ih
    · rw [if_neg ha]
      exact ih

/-- Lookup after update-ref. -/
theorem lookupRef_setRef (l : List (String × String)) (k v k2 : String) :
    lookupRef (setRef l k v) k2 = if k2 = k then some v else lookupRef l k2 := by
  unfold setRef
  rw [lookupRef_cons]
  by_cases h : k2 = k
  · subst h
    simp
  · have : (k == k2) = false := by
      rw [beq_eq_false_iff_ne]
      exact fun hh => h hh.symm
    rw [this, if_neg h]
    simpa using lookupRef_filter_ne l k k2 h

/-- Lookup after deleting a ref. -/
theorem lookupRef_eraseRef (l : List (String × String)) (k k2 : String) :
    lookupRef (eraseRef l k) k2 = if k2 = k then none else lookupRef l k2 := by
  unfold eraseRef
  by_cases h : k2 = k
  · subst h
    rw [if_pos rfl]
    exact lookupRef_filter_self l k2
  · rw [if_neg h]
    exact lookupRef_filter_ne l k k2 h

/-- A branch's full ref name is never the empty revision. -/
theorem headsKey_ne_empty (b : String) : ("refs/heads/" ++ b) ≠ "" := by
  intro h
  have h2 : ("refs/heads/" ++ b).data = "".data := congrArg String.data h
  rw [String.data_append] at h2
  rcases List.append_eq_nil.mp h2 with ⟨h3, _⟩
  exact absurd h3 (by decide)

/-- C9: when a descriptor file is loaded, the join method resolves to
rebase exactly when the file's subrepo.method value is the string "rebase";
any other value, including a missing or unrecognized one, silently resolves
to merge. -/
theorem c9_join_method_resolution (v : Option String) :
    (readJoinMethod v = "rebase" ↔ v = some "rebase") ∧
    (readJoinMethod v = "rebase" ∨ readJoinMethod v = "merge") ∧
    (v ≠ some "rebase" → readJoinMethod v = "merge") := by
  unfold readJoinMethod configOutput
  rcases v with _ | s
  · simp
  · by_cases h : s = "rebase"
    · subst h
      simp
    · simp [h]

/-- Witness for C9 at a concrete unrecognized method value. -/
theorem c9_witness : readJoinMethod (some "bogus") = "merge" :=
  (c9_join_method_resolution (some "bogus")).2.2 (by decide)

/-- C6: during a publish (an upstream head commit and a commit ref are
known), the descriptor's parent field is rewritten exactly when the
resolved hash of the commit ref being recorded equals the upstream head
commit; otherwise the existing parent value is left untouched. -/
theorem c6_parent_rewrite (env : GitOracle) (ctx : Ctx) (σ : RepoState) (u r : String)
    (hu : u ≠ "") (hr : r ≠ "")
    (hok : (update_gitrepo_file env ctx σ u r).1 = none) :
    ((update_gitrepo_file env ctx σ u r).2.2.parent = true ↔ resolveRev σ r = some u) ∧
    ((update_gitrepo_file env ctx σ u r).2.2.parent = false →
      ((update_gitrepo_file env ctx σ u r).2.1.gitrepoFile.map Descriptor.parent) =
        some (baseDescriptor env σ).1.parent) := by
  have hg : (u != "" && r != "") = true := by
    rw [Bool.and_eq_true, bne_iff_ne, bne_iff_ne]
    exact ⟨hu, hr⟩
  cases hres : resolveRev σ r with
  | none =>
    exfalso
    revert hok
    unfold update_gitrepo_file
    rw [if_pos hg, hres]
    simp
  | some sha =>
    unfold update_gitrepo_file
    rw [if_pos hg, hres]
    by_cases hps : u = sha
    · subst hps
      simp [hres]
    · have : (u == sha) = false := by
        rw [beq_eq_false_iff_ne]
        exact hps
      simp only [this]
      constructor
      · simp [hres]
        exact fun hh => hps hh.symm
      · intro _
        simp

/-- Witness for C6: a concrete publish where the resolved commit ref equals
the upstream head, so the parent field is rewritten. -/
theorem c6_witness : (update_gitrepo_file oracle0 ctx0 stC6 "u1" "u1").2.2.parent = true :=
  (c6_parent_rewrite oracle0 ctx0 stC6 "u1" "u1" (by decide) (by decide) (by decide)).1.mpr
    (by decide)

/-- C7 (amended): on a successful descriptor save the method and cmdver
fields are always rewritten; the commit field is rewritten exactly when an
upstream head commit is known; the remote and branch fields are rewritten
only on the first write of the file, or under --update with the
corresponding override, or for the push and clone commands with the
corresponding override. -/
theorem c7_field_rewrite_rules (env : GitOracle) (ctx : Ctx) (σ : RepoState)
    (u r : String) (σ2 : RepoState) (log : WriteLog)
    (h : update_gitrepo_file env ctx σ u r = (none, σ2, log)) :
    log.method = true ∧ log.cmdver = true ∧ (log.commit = true ↔ u ≠ "") ∧
    (log.remote = true → ((baseDescriptor env σ).2 = true ∨
      (ctx.updateWanted = true ∧ ctx.overrideRemote ≠ "") ∨
      ((ctx.command = "push" ∨ ctx.command = "clone") ∧ ctx.overrideRemote ≠ ""))) ∧
    (log.branch = true → ((baseDescriptor env σ).2 = true ∨
      (ctx.updateWanted = true ∧ ctx.overrideBranch ≠ "") ∨
      ((ctx.command = "push" ∨ ctx.command = "clone") ∧ ctx.overrideBranch ≠ ""))) := by
  unfold update_gitrepo_file at h
  have main : log = ⟨(baseDescriptor env σ).2 ||
      (ctx.updateWanted && ctx.overrideRemote != "") ||
      ((ctx.command == "push" || ctx.command == "clone") && ctx.overrideRemote != ""),
      (baseDescriptor env σ).2 || (ctx.updateWanted && ctx.overrideBranch != "") ||
      ((ctx.command == "push" || ctx.command == "clone") && ctx.overrideBranch != ""),
      u != "", log.parent, true, true⟩ := by
    by_cases hg : (u != "" && r != "") = true
    · rw [if_pos hg] at h
      cases hres : resolveRev σ r with
      | none =>
        rw [hres] at h
        exact absurd (congrArg Prod.fst h) (by simp)
      | some sha =>
        rw [hres] at h
        have h3 := congrArg (fun p => p.2.2) h
        simp only at h3
        rw [← h3]
    · rw [if_neg hg] at h
      have h3 := congrArg (fun p => p.2.2) h
      simp only at h3
      rw [← h3]
  refine ⟨by rw [main], by rw [main], ?_, ?_, ?_⟩
  · rw [main]
    simp [bne_iff_ne]
  · intro hr
    rw [main] at hr
    simp only [Bool.or_eq_true, Bool.and_eq_true, bne_iff_ne, beq_iff_eq] at hr
    rcases hr with (hr | hr) | hr
    · exact Or.inl hr
    · exact Or.inr (Or.inl hr)
    · exact Or.inr (Or.inr hr)
  · intro hr
    rw [main] at hr
    simp only [Bool.or_eq_true, Bool.and_eq_true, bne_iff_ne, beq_iff_eq] at hr
    rcases hr with (hr | hr) | hr
    · exact Or.inl hr
    · exact Or.inr (Or.inl hr)
    · exact Or.inr (Or.inr hr)

/-- Counterexample for C7 as stated: a save with no upstream head commit
known (an init with remote none) succeeds without rewriting the commit
field, so "the commit field is always rewritten" fails. -/
theorem c7_counterexample :
    (update_gitrepo_file oracle0 ctx0 stC6 "" "r1").1 = none ∧
    (update_gitrepo_file oracle0 ctx0 stC6 "" "r1").2.2.commit = false := by decide

/-- Witness for C7 (amended) at a concrete save. -/
theorem c7_witness : (update_gitrepo_file oracle0 ctx0 stC6 "u1" "u1").2.2.method = true :=
  (c7_field_rewrite_rules oracle0 ctx0 stC6 "u1" "u1"
    (update_gitrepo_file oracle0 ctx0 stC6 "u1" "u1").2.1
    (update_gitrepo_file oracle0 ctx0 stC6 "u1" "u1").2.2 (by decide)).1

/-- A failing git_make_ref reports a backend failure and leaves the state
unchanged. -/
theorem git_make_ref_err (σ : RepoState) (r t : String) (e : SubrepoErr) (σ2 : RepoState)
    (h : git_make_ref σ r t = (some e, σ2)) : e = .backendFailed ∧ σ2 = σ := by
  unfold git_make_ref at h
  cases hres : resolveRev σ t with
  | some sha =>
    rw [hres] at h
    exact absurd (congrArg Prod.fst h) (by simp)
  | none =>
    rw [hres] at h
    have h1 := congrArg Prod.fst h
    have h2 := congrArg Prod.snd h
    simp only [Option.some.injEq] at h1
    exact ⟨h1.symm, (congrArg id h2).symm⟩

/-- The only error finishBranch can produce is the backend failure of its
final make-ref. -/
theorem finishBranch_err (env : GitOracle) (ctx : Ctx) (σ : RepoState)
    (b fg : String) (syn : List SynthCommit) (e : SubrepoErr) (σ2 : RepoState)
    (h : finishBranch env ctx σ b fg syn = (.err e, σ2)) : e = .backendFailed := by
  unfold finishBranch at h
  split at h
  · exact absurd (congrArg Prod.fst h) (by simp)
  · next e2 σ3 heq =>
    have h1 := congrArg Prod.fst h
    simp only [BcRes.err.injEq] at h1
    rw [← h1]
    exact (git_make_ref_err _ _ _ _ _ heq).1

/-- A successful finishBranch leaves the branch ref bound. -/
theorem finishBranch_success_exists (env : GitOracle) (ctx : Ctx) (σ : RepoState)
    (b fg : String) (syn syn2 : List SynthCommit) (σ2 : RepoState)
    (h : finishBranch env ctx σ b fg syn = (.ok syn2, σ2)) :
    branchExistsB σ2 b = true := by
  unfold finishBranch at h
  split at h
  · next σ3 heq =>
    have h2 := congrArg Prod.snd h
    simp only at h2
    unfold git_make_ref at heq
    split at heq
    · next sha hres =>
      have h3 := congrArg Prod.snd heq
      simp only at h3
      rw [← h2, ← h3]
      unfold branchExistsB revExistsB
      rw [bne_iff_ne.mpr (headsKey_ne_empty b), Bool.true_and]
      unfold resolveRev
      rw [lookupRef_setRef]
      by_cases hbr : ("refs/heads/" ++ b) = ctx.refsBranch
      · rw [if_pos hbr]
        simp
      · rw [if_neg hbr, lookupRef_setRef, if_pos rfl]
        simp
    · exact absurd (congrArg Prod.fst heq) (by simp)
  · exact absurd (congrArg Prod.fst h) (by simp)

/-- A successful graft leaves the target branch in existence. -/
theorem bc_success_branch_exists (env : GitOracle) (ctx : Ctx) (σ : RepoState)
    (b : String) (syn : List SynthCommit) (σ2 : RepoState)
    (h : subrepo_branch_create env ctx σ b = (.ok syn, σ2)) :
    branchExistsB σ2 b = true := by
  unfold subrepo_branch_create at h
  by_cases hb : branchExistsB σ b = true
  · rw [if_pos hb] at h
    have h2 := congrArg Prod.snd h
    simp only at h2
    rw [← h2]
    exact hb
  · rw [if_neg hb] at h
    by_cases hp : (ctx.subrepoParent != "") = true
    · rw [if_pos hp] at h
      by_cases ha : (!(env.isAncestor ctx.subrepoParent σ.head)) = true
      · rw [if_pos ha] at h
        exact absurd (congrArg Prod.fst h) (by simp)
      · rw [if_neg ha] at h
        cases hl : branchLoop env ctx σ LoopAcc.init []
            (env.revListAncestryPath ctx.subrepoParent σ.head) with
        | error e =>
          rw [hl] at h
          exact absurd (congrArg Prod.fst h) (by simp)
        | ok p =>
          rw [hl] at h
          obtain ⟨acc, syn0⟩ := p
          dsimp only [] at h
          by_cases hpr : (acc.prev == "") = true
          · rw [if_pos hpr] at h
            exact absurd (congrArg Prod.fst h) (by simp)
          · rw [if_neg hpr] at h
            exact finishBranch_success_exists _ _ _ _ _ _ _ _ h
    · rw [if_neg hp] at h
      exact finishBranch_success_exists _ _ _ _ _ _ _ _ h

/-- C5: if the target graft branch already exists the graft routine is a
no-op returning the state unchanged, and therefore running the graft twice
in a row leaves exactly the state (and branch tip) of running it once. -/
theorem c5_graft_idempotent (env : GitOracle) (ctx : Ctx) (σ : RepoState) (b : String) :
    (branchExistsB σ b = true → subrepo_branch_create env ctx σ b = (.ok [], σ)) ∧
    (∀ syn σ2, subrepo_branch_create env ctx σ b = (.ok syn, σ2) →
      subrepo_branch_create env ctx σ2 b = (.ok [], σ2)) := by
  constructor
  · intro hb
    unfold subrepo_branch_create
    rw [if_pos hb]
  · intro syn σ2 h
    have hb2 := bc_success_branch_exists env ctx σ b syn σ2 h
    unfold subrepo_branch_create
    rw [if_pos hb2]

/-- Witness for C5: a concrete state whose graft branch already exists. -/
theorem c5_witness : subrepo_branch_create oracle0 ctx0 stC5 "subrepo/x" = (.ok [], stC5) :=
  (c5_graft_idempotent oracle0 ctx0 stC5 "subrepo/x").1 (by decide)

/-- C2 (amended): when the target branch does not already exist and the
descriptor's sync parent is set but is not an ancestor of HEAD, the graft
fails with the ancestor-not-found error whose recovery hint is the first
parent of the last commit that changed the descriptor's commit entry, and
the state is returned unchanged (no ref or branch mutation). -/
theorem c2_ancestor_check (env : GitOracle) (ctx : Ctx) (σ : RepoState) (b : String)
    (hp : ctx.subrepoParent ≠ "")
    (hb : branchExistsB σ b = false)
    (ha : env.isAncestor ctx.subrepoParent σ.head = false) :
    subrepo_branch_create env ctx σ b = (.err (.ancestorNotFound (ancestorHint env)), σ) := by
  unfold subrepo_branch_create
  rw [if_neg (by rw [hb]; exact Bool.false_ne_true)]
  rw [if_pos (bne_iff_ne.mpr hp)]
  rw [if_pos (by rw [ha]; rfl)]

/-- Counterexample for C2 as stated: the recovery hint is t0, the first
parent of the last descriptor-changing commit t1, not that commit itself. -/
theorem c2_counterexample :
    subrepo_branch_create envC2 ctxC2 state0 "subrepo/x" =
      (.err (.ancestorNotFound "t0"), state0) ∧
    envC2.lastDescriptorChange = "t1" ∧ ("t0" : String) ≠ "t1" := by decide

/-- Witness for C2 (amended) at a concrete failing state. -/
theorem c2_witness :
    subrepo_branch_create envC2 ctxC2 state0 "subrepo/x" =
      (.err (.ancestorNotFound (ancestorHint envC2)), state0) :=
  c2_ancestor_check envC2 ctxC2 state0 "subrepo/x" (by decide) (by decide) (by decide)

/-- A history-rewritten error from one walk step means the fetch ref
existed and the recorded upstream commit was not in its rev-list. -/
theorem branchStep_historyRewritten (env : GitOracle) (ctx : Ctx) (σ : RepoState)
    (acc : LoopAcc) (syn : List SynthCommit) (c g : String)
    (h : branchStep env ctx σ acc syn c = .error (.historyRewritten g)) :
    revExistsB σ ctx.refsFetch = true ∧ commitInRevListB env σ g ctx.refsFetch = false := by
  unfold branchStep at h
  dsimp only [] at h
  split at h
  · exact absurd h (by simp)
  · split at h
    · exact absurd h (by simp)
    · split at h
      · next hcond =>
        have hg : env.blobSubrepoCommit c = g := by
          have := h
          simp only [Except.error.injEq, SubrepoErr.historyRewritten.injEq] at this
          exact this
        rw [Bool.and_eq_true] at hcond
        refine ⟨hcond.1, ?_⟩
        have h2 := hcond.2
        rw [Bool.not_eq_true'] at h2
        rw [← hg]
        exact h2
      · exact absurd h (by simp)

/-- A history-rewritten error from the walk loop means the fetch ref
existed and the recorded upstream commit was not in its rev-list. -/
theorem branchLoop_historyRewritten (env : GitOracle) (ctx : Ctx) (σ : RepoState) :
    ∀ (cs : List String) (acc : LoopAcc) (syn : List SynthCommit) (g : String),
    branchLoop env ctx σ acc syn cs = .error (.historyRewritten g) →
    revExistsB σ ctx.refsFetch = true ∧ commitInRevListB env σ g ctx.refsFetch = false := by
  intro cs
  induction cs with
  | nil =>
    intro acc syn g h
    exact absurd h (by simp [branchLoop])
  | cons c cs ih =>
    intro acc syn g h
    unfold branchLoop at h
    cases hs : branchStep env ctx σ acc syn c with
    | error e =>
      rw [hs] at h
      simp only [Except.error.injEq] at h
      rw [h] at hs
      exact branchStep_historyRewritten env ctx σ acc syn c g hs
    | ok p =>
      rw [hs] at h
      obtain ⟨acc2, syn2⟩ := p
      dsimp only [] at h
      exact ih acc2 syn2 g h

/-- C1 (amended): whenever the graft aborts with a history-rewritten error
for a recorded upstream commit, the fetched-upstream ref existed and that
commit was not reachable from it in the rev-list sense; reachability from
the fetched ref is the only check performed (existence in the object store
is not consulted), and the state is returned unchanged (the failing commit
is not synthesized). -/
theorem c1_history_rewritten_guard (env : GitOracle) (ctx : Ctx) (σ : RepoState)
    (b g : String) (σ2 : RepoState)
    (h : subrepo_branch_create env ctx σ b = (.err (.historyRewritten g), σ2)) :
    revExistsB σ ctx.refsFetch = true ∧
    commitInRevListB env σ g ctx.refsFetch = false ∧ σ2 = σ := by
  unfold subrepo_branch_create at h
  by_cases hb : branchExistsB σ b = true
  · rw [if_pos hb] at h
    exact absurd (congrArg Prod.fst h) (by simp)
  · rw [if_neg hb] at h
    by_cases hp : (ctx.subrepoParent != "") = true
    · rw [if_pos hp] at h
      by_cases ha : (!(env.isAncestor ctx.subrepoParent σ.head)) = true
      · rw [if_pos ha] at h
        have h1 := congrArg Prod.fst h
        simp only [BcRes.err.injEq] at h1
        exact absurd h1 (by simp)
      · rw [if_neg ha] at h
        cases hl : branchLoop env ctx σ LoopAcc.init []
            (env.revListAncestryPath ctx.subrepoParent σ.head) with
        | error e =>
          rw [hl] at h
          have h1 := congrArg Prod.fst h
          have h2 := congrArg Prod.snd h
          simp only [BcRes.err.injEq] at h1
          simp only at h2
          rw [h1] at hl
          have hmain := branchLoop_historyRewritten env ctx σ _ _ _ _ hl
          exact ⟨hmain.1, hmain.2, h2.symm⟩
        | ok p =>
          rw [hl] at h
          obtain ⟨acc, syn0⟩ := p
          dsimp only [] at h
          by_cases hpr : (acc.prev == "") = true
          · rw [if_pos hpr] at h
            have h1 := congrArg Prod.fst h
            simp only [BcRes.err.injEq] at h1
            exact absurd h1 (by simp)
          · rw [if_neg hpr] at h
            have := finishBranch_err _ _ _ _ _ _ _ _ h
            exact absurd this (by simp)
    · rw [if_neg hp] at h
      have := finishBranch_err _ _ _ _ _ _ _ _ h
      exact absurd this (by simp)

/-- Counterexample for C1 as stated: the recorded upstream commit g1 exists
in the object store, yet the graft still fails with the history-rewritten
error because g1 is not reachable from the fetched ref. -/
theorem c1_counterexample :
    subrepo_branch_create envC1 ctxC1 stC1 "subrepo/x" =
      (.err (.historyRewritten "g1"), stC1) ∧
    revExistsB stC1 "g1" = true := by decide

/-- Witness for C1 (amended) at a concrete failing graft. -/
theorem c1_witness :
    revExistsB stC1 ctxC1.refsFetch = true ∧
    commitInRevListB envC1 stC1 "g1" ctxC1.refsFetch = false ∧ stC1 = stC1 :=
  c1_history_rewritten_guard envC1 ctxC1 stC1 "subrepo/x" "g1" stC1 (by decide)

/-- The walk state after a nonempty synthesized list ends at its last
commit, with the first-commit flag cleared. -/
theorem tailState_snoc (l : List SynthCommit) (s : SynthCommit) :
    ∀ (p g : String) (f : Bool), tailState p g f (l ++ [s]) = (s.sha, s.grc, false) := by
  induction l with
  | nil => intro p g f; rfl
  | cons t l ih => intro p g f; exact ih t.sha t.grc false

/-- Once the first-commit flag is cleared it stays cleared. -/
theorem tailState_flag_false (l : List SynthCommit) :
    ∀ (p g : String), (tailState p g false l).2.2 = false := by
  induction l with
  | nil => intro p g; rfl
  | cons t l ih => intro p g; exact ih t.sha t.grc

/-- The first-commit flag survives exactly on the empty synthesized list. -/
theorem tailState_flag_true_iff (l : List SynthCommit) :
    (tailState "" "" true l).2.2 = true ↔ l = [] := by
  cases l with
  | nil => simp [tailState]
  | cons t l =>
    constructor
    · intro h
      exact absurd h (by rw [show tailState "" "" true (t :: l) = tailState t.sha t.grc false l from rfl, tailState_flag_false]; simp)
    · intro h
      exact absurd h (by simp)

/-- Appending one commit to the checked list adds exactly one expected-
parents check, taken at the walk state after the existing list. -/
theorem parentsGo_snoc (m : String) (l : List SynthCommit) (s : SynthCommit) :
    ∀ (p g : String) (f : Bool),
    parentsGo m p g f (l ++ [s]) =
      (parentsGo m p g f l &&
        (s.parents == expectedParents m (tailState p g f l).1 (tailState p g f l).2.1
          (tailState p g f l).2.2 s.grc)) := by
  induction l with
  | nil =>
    intro p g f
    show parentsGo m p g f [s] = _
    unfold parentsGo tailState
    simp [parentsGo]
  | cons t l ih =>
    intro p g f
    show parentsGo m p g f (t :: (l ++ [s])) = _
    unfold parentsGo
    rw [ih t.sha t.grc false]
    show _ = ((_ && _) && _)
    rw [Bool.and_assoc]
    rfl

/-- A Bool that is not true is false. -/
theorem bool_not_true {b : Bool} (h : ¬ b = true) : b = false := by
  cases b
  · rfl
  · exact absurd rfl h

/-- A Bool-valued disequality that is false is an equality. -/
theorem bne_false_eq (a b : String) (h : (a != b) = false) : a = b := by
  by_cases h2 : a = b
  · exact h2
  · have h3 := bne_iff_ne.mpr h2
    rw [h] at h3
    exact absurd h3 Bool.false_ne_true

/-- One walk step preserves the loop invariant: the checked expected-parent
property extends to the new synthesized commit, and the loop variables
track the synthesized list (prev_commit is its last hash,
last_gitrepo_commit under merge is its last recorded upstream commit, and
first_gitrepo_commit emptiness flags whether nothing was synthesized). -/
theorem branchStep_invariant (env : GitOracle) (ctx : Ctx) (σ : RepoState)
    (acc : LoopAcc) (syn : List SynthCommit) (c : String)
    (accN : LoopAcc) (synN : List SynthCommit)
    (hct : ∀ c2 ps, env.commitTree c2 ps ≠ "")
    (het : ∀ ps, env.emptyCommitTree ps ≠ "")
    (hOk : parentsOk ctx.joinMethod syn = true)
    (hpv : (tailState "" "" true syn).1 = acc.prev)
    (hlg : (ctx.joinMethod != "rebase") = true → (tailState "" "" true syn).2.1 = acc.lastG)
    (hfi : (tailState "" "" true syn).2.2 = (acc.firstG == ""))
    (hpv2 : (tailState "" "" true syn).2.2 = (acc.prev == ""))
    (hs : branchStep env ctx σ acc syn c = .ok (accN, synN)) :
    parentsOk ctx.joinMethod synN = true ∧
    (tailState "" "" true synN).1 = accN.prev ∧
    ((ctx.joinMethod != "rebase") = true → (tailState "" "" true synN).2.1 = accN.lastG) ∧
    (tailState "" "" true synN).2.2 = (accN.firstG == "") ∧
    (tailState "" "" true synN).2.2 = (accN.prev == "") := by
  unfold branchStep at hs
  dsimp only [] at hs
  split at hs
  · simp only [Except.ok.injEq, Prod.mk.injEq] at hs
    obtain ⟨h1, h2⟩ := hs
    rw [← h1, ← h2]
    exact ⟨hOk, hpv, hlg, hfi, hpv2⟩
  · split at hs
    · simp only [Except.ok.injEq, Prod.mk.injEq] at hs
      obtain ⟨h1, h2⟩ := hs
      rw [← h1, ← h2]
      exact ⟨hOk, hpv, hlg, hfi, hpv2⟩
    · split at hs
      · exact absurd hs (by simp)
      · rename_i hne1 hne2 hne3
        simp only [Except.ok.injEq, Prod.mk.injEq] at hs
        obtain ⟨hA, hS⟩ := hs
        rw [← hA, ← hS]
        have hgne : env.blobSubrepoCommit c ≠ "" := by
          intro hh
          exact hne1 (by rw [hh]; rfl)
        have hgneb : (env.blobSubrepoCommit c != "") = true := bne_iff_ne.mpr hgne
        have hshane : ∀ P : List String,
            ((if env.subdirHasContent c = true then env.commitTree c P
              else env.emptyCommitTree P) == "") = false := by
          intro P
          rw [beq_eq_false_iff_ne]
          by_cases hco : env.subdirHasContent c = true
          · rw [if_pos hco]; exact hct c P
          · rw [if_neg hco]; exact het P
        by_cases hfl : (tailState "" "" true syn).2.2 = true
        · -- first synthesized commit
          have hsyn : syn = [] := (tailState_flag_true_iff syn).mp hfl
          subst hsyn
          have hprev : acc.prev = "" := hpv.symm
          have hfgb : (acc.firstG == "") = true := hfi.symm
          by_cases hm : (ctx.joinMethod != "rebase") = true
          · have hlgv : acc.lastG = "" := (hlg hm).symm
            refine ⟨?_, ?_, ?_, ?_, ?_⟩
            · unfold parentsOk
              rw [parentsGo_snoc]
              simp [parentsGo, expectedParents, tailState, hprev, hfgb, hlgv, hm, hgneb]
            · rw [tailState_snoc]
            · intro hm2
              rw [tailState_snoc]
              simp [hlgv, hm, hgneb]
            · rw [tailState_snoc]
              simp [hfgb, beq_eq_false_iff_ne, hgne]
            · rw [tailState_snoc]
              exact (hshane _).symm
          · have hmf : (ctx.joinMethod != "rebase") = false := bool_not_true hm
            refine ⟨?_, ?_, ?_, ?_, ?_⟩
            · unfold parentsOk
              rw [parentsGo_snoc]
              simp [parentsGo, expectedParents, tailState, hprev, hfgb, hmf, hgneb]
            · rw [tailState_snoc]
            · intro hm2
              exact absurd hm2 (by rw [hmf]; simp)
            · rw [tailState_snoc]
              simp [hfgb, beq_eq_false_iff_ne, hgne]
            · rw [tailState_snoc]
              exact (hshane _).symm
        · -- later synthesized commit
          have hflf : (tailState "" "" true syn).2.2 = false := bool_not_true hfl
          have hfib : (acc.firstG == "") = false := by rw [← hfi]; exact hflf
          have hpvb : (acc.prev == "") = false := by rw [← hpv2]; exact hflf
          by_cases hm : (ctx.joinMethod != "rebase") = true
          · have hlgv : (tailState "" "" true syn).2.1 = acc.lastG := hlg hm
            refine ⟨?_, ?_, ?_, ?_, ?_⟩
            · unfold parentsOk
              rw [parentsGo_snoc]
              unfold parentsOk at hOk
              rw [hOk, Bool.true_and]
              simp [parentsGo, expectedParents, hpv, hlgv, hflf, hfib, hpvb, hm]
            · rw [tailState_snoc]
            · intro hm2
              rw [tailState_snoc]
              by_cases hgl : (env.blobSubrepoCommit c != acc.lastG) = true
              · simp [hm, hgl]
              · have hglf : (env.blobSubrepoCommit c != acc.lastG) = false := bool_not_true hgl
                have hgleq := bne_false_eq _ _ hglf
                simp [hm, hglf, hgleq]
            · rw [tailState_snoc]
              simp [hfib]
            · rw [tailState_snoc]
              exact (hshane _).symm
          · have hmf : (ctx.joinMethod != "rebase") = false := bool_not_true hm
            refine ⟨?_, ?_, ?_, ?_, ?_⟩
            · unfold parentsOk
              rw [parentsGo_snoc]
              unfold parentsOk at hOk
              rw [hOk, Bool.true_and]
              simp [parentsGo, expectedParents, hpv, hflf, hfib, hpvb, hmf]
            · rw [tailState_snoc]
            · intro hm2
              exact absurd hm2 (by rw [hmf]; simp)
            · rw [tailState_snoc]
              simp [hfib]
            · rw [tailState_snoc]
              exact (hshane _).symm

/-- The walk loop preserves the invariant and so its output list satisfies
the expected-parent property. -/
theorem branchLoop_parentsOk (env : GitOracle) (ctx : Ctx) (σ : RepoState)
    (hct : ∀ c2 ps, env.commitTree c2 ps ≠ "")
    (het : ∀ ps, env.emptyCommitTree ps ≠ "") :
    ∀ (cs : List String) (acc : LoopAcc) (syn : List SynthCommit)
      (acc2 : LoopAcc) (syn2 : List SynthCommit),
    parentsOk ctx.joinMethod syn = true →
    (tailState "" "" true syn).1 = acc.prev →
    ((ctx.joinMethod != "rebase") = true → (tailState "" "" true syn).2.1 = acc.lastG) →
    (tailState "" "" true syn).2.2 = (acc.firstG == "") →
    (tailState "" "" true syn).2.2 = (acc.prev == "") →
    branchLoop env ctx σ acc syn cs = .ok (acc2, syn2) →
    parentsOk ctx.joinMethod syn2 = true := by
  intro cs
  induction cs with
  | nil =>
    intro acc syn acc2 syn2 hOk hpv hlg hfi hpv2 h
    unfold branchLoop at h
    simp only [Except.ok.injEq, Prod.mk.injEq] at h
    rw [← h.2]
    exact hOk
  | cons c cs ih =>
    intro acc syn acc2 syn2 hOk hpv hlg hfi hpv2 h
    unfold branchLoop at h
    cases hs : branchStep env ctx σ acc syn c with
    | error e =>
      rw [hs] at h
      exact absurd h (by simp)
    | ok p =>
      rw [hs] at h
      obtain ⟨accM, synM⟩ := p
      dsimp only [] at h
      obtain ⟨i1, i2, i3, i4, i5⟩ :=
        branchStep_invariant env ctx σ acc syn c accM synM hct het hOk hpv hlg hfi hpv2 hs
      exact ih accM synM acc2 syn2 i1 i2 i3 i4 i5 h

/-- A successful finishBranch passes its synthesized list through. -/
theorem finishBranch_ok_payload (env : GitOracle) (ctx : Ctx) (σ : RepoState)
    (b fg : String) (syn syn2 : List SynthCommit) (σ2 : RepoState)
    (h : finishBranch env ctx σ b fg syn = (.ok syn2, σ2)) : syn2 = syn := by
  unfold finishBranch at h
  split at h
  · have h1 := congrArg Prod.fst h
    simp only [BcRes.ok.injEq] at h1
    exact h1.symm
  · exact absurd (congrArg Prod.fst h) (by simp)

/-- C3: every commit synthesized by the incremental graft has first-parent
the previously synthesized commit (absent on the first) and second-parent
the recorded upstream commit, added on the very first synthesized commit
and, when the join method is merge (not rebase), again exactly on later
commits whose recorded upstream commit differs from the previous
synthesized commit's; under rebase no later commit gets a second parent. -/
theorem c3_parent_lists (env : GitOracle) (ctx : Ctx) (σ : RepoState)
    (b : String) (syn : List SynthCommit)
    (hct : ∀ c2 ps, env.commitTree c2 ps ≠ "")
    (het : ∀ ps, env.emptyCommitTree ps ≠ "")
    (h : (subrepo_branch_create env ctx σ b).1 = .ok syn) :
    parentsOk ctx.joinMethod syn = true := by
  rcases hfull : subrepo_branch_create env ctx σ b with ⟨res, σ2⟩
  rw [hfull] at h
  dsimp only [] at h
  rw [h] at hfull
  unfold subrepo_branch_create at hfull
  by_cases hb : branchExistsB σ b = true
  · rw [if_pos hb] at hfull
    have h1 := congrArg Prod.fst hfull
    simp only [BcRes.ok.injEq] at h1
    rw [← h1]
    rfl
  · rw [if_neg hb] at hfull
    by_cases hp : (ctx.subrepoParent != "") = true
    · rw [if_pos hp] at hfull
      by_cases ha : (!(env.isAncestor ctx.subrepoParent σ.head)) = true
      · rw [if_pos ha] at hfull
        exact absurd (congrArg Prod.fst hfull) (by simp)
      · rw [if_neg ha] at hfull
        cases hl : branchLoop env ctx σ LoopAcc.init []
            (env.revListAncestryPath ctx.subrepoParent σ.head) with
        | error e =>
          rw [hl] at hfull
          exact absurd (congrArg Prod.fst hfull) (by simp)
        | ok p =>
          rw [hl] at hfull
          obtain ⟨acc, syn0⟩ := p
          dsimp only [] at hfull
          by_cases hpr : (acc.prev == "") = true
          · rw [if_pos hpr] at hfull
            exact absurd (congrArg Prod.fst hfull) (by simp)
          · rw [if_neg hpr] at hfull
            have hpay := finishBranch_ok_payload _ _ _ _ _ _ _ _ hfull
            rw [hpay]
            exact branchLoop_parentsOk env ctx σ hct het _ LoopAcc.init [] acc syn0
              rfl rfl (fun _ => rfl) rfl rfl hl
    · rw [if_neg hp] at hfull
      have hpay := finishBranch_ok_payload _ _ _ _ _ _ _ _ hfull
      rw [hpay]
      rfl

/-- Witness for C3: a concrete three-commit incremental graft under merge,
where the second commit introduces a new upstream commit (second parent
added) and the third repeats it (no second parent). -/
theorem c3_witness : parentsOk ctxC3.joinMethod synC3 = true := by
  have hct : ∀ c2 ps, envC3.commitTree c2 ps ≠ "" := by
    intro c2 ps
    show "aaa1" ≠ ""
    decide
  have het : ∀ ps, envC3.emptyCommitTree ps ≠ "" := by
    intro ps
    show "bbb1" ≠ ""
    decide
  exact c3_parent_lists envC3 ctxC3 state0 "subrepo/x" synC3 hct het (by decide)

/-- C4: if a pull reaches its reconciliation step and the merge/rebase
backend command exits with conflicts, the pull signals the
conflicts-pending state, leaves the worktree exactly as the backend left it
(non-clean, not cleaned up), and performs no ref update after the conflict
(the final refs are those of the post-graft state). -/
theorem c4_pull_conflict (env : GitOracle) (ctx : Ctx) (σ σ1 : RepoState) (u : String)
    (h : pull_graft_phase env ctx σ = (.proceed u, σ1))
    (hc : env.joinOk = false)
    (hw : env.joinWorktree.clean = false) :
    subrepo_pull env ctx σ = (.conflicts, { σ1 with worktree := some env.joinWorktree }) ∧
    (subrepo_pull env ctx σ).2.refs = σ1.refs ∧
    (subrepo_pull env ctx σ).2.worktree = some env.joinWorktree ∧
    ((subrepo_pull env ctx σ).2.worktree.map WorktreeState.clean) = some false := by
  have hmain : subrepo_pull env ctx σ =
      (.conflicts, { σ1 with worktree := some env.joinWorktree }) := by
    unfold subrepo_pull
    rw [h]
    unfold pull_join_phase
    rw [hc]
    rfl
  refine ⟨hmain, ?_, ?_, ?_⟩
  · rw [hmain]
  · rw [hmain]
  · rw [hmain]
    simp [hw]

/-- Witness for C4: a concrete pull whose merge conflicts. -/
theorem c4_witness :
    subrepo_pull envC4 ctxC4 state0 =
      (.conflicts, { stC4' with worktree := some envC4.joinWorktree }) :=
  (c4_pull_conflict envC4 ctxC4 state0 stC4' "u1" (by decide) (by decide) (by decide)).1

/-- A successful git_delete_branch removes the worktree and exactly the
branch's ref, changing nothing else. -/
theorem git_delete_branch_spec (σ : RepoState) (b : String) (σ1 : RepoState)
    (h : git_delete_branch σ b = (none, σ1)) :
    σ1.head = σ.head ∧ σ1.pushLog = σ.pushLog ∧ σ1.gitrepoFile = σ.gitrepoFile ∧
    σ1.objects = σ.objects ∧ σ1.worktree = none ∧
    σ1.refs = eraseRef σ.refs ("refs/heads/" ++ b) ∧
    σ1.subdirHasFiles = σ.subdirHasFiles ∧ σ1.subdirFrom = σ.subdirFrom := by
  cases hw : σ.worktree with
  | none =>
    unfold git_delete_branch git_remove_worktree at h
    rw [hw] at h
    dsimp only [] at h
    have h2 := congrArg Prod.snd h
    dsimp only [] at h2
    rw [← h2]
    exact ⟨rfl, rfl, rfl, rfl, hw, rfl, rfl, rfl⟩
  | some w =>
    unfold git_delete_branch git_remove_worktree at h
    rw [hw] at h
    dsimp only [] at h
    by_cases hcl : w.clean = true
    · rw [if_pos hcl] at h
      dsimp only [] at h
      have h2 := congrArg Prod.snd h
      dsimp only [] at h2
      rw [← h2]
      exact ⟨rfl, rfl, rfl, rfl, rfl, rfl, rfl, rfl⟩
    · rw [if_neg hcl] at h
      dsimp only [] at h
      exact absurd (congrArg Prod.fst h) (by simp)

/-- finishBranch changes at most the branch ref, the branch-checkpoint ref
and the worktree. -/
theorem finishBranch_frame (env : GitOracle) (ctx : Ctx) (σ : RepoState)
    (b fg : String) (syn : List SynthCommit) :
    (finishBranch env ctx σ b fg syn).2.head = σ.head ∧
    (finishBranch env ctx σ b fg syn).2.pushLog = σ.pushLog ∧
    (finishBranch env ctx σ b fg syn).2.gitrepoFile = σ.gitrepoFile ∧
    (finishBranch env ctx σ b fg syn).2.objects = σ.objects ∧
    (finishBranch env ctx σ b fg syn).2.subdirHasFiles = σ.subdirHasFiles ∧
    (finishBranch env ctx σ b fg syn).2.subdirFrom = σ.subdirFrom ∧
    ∀ r, r ≠ ("refs/heads/" ++ b) → r ≠ ctx.refsBranch →
      lookupRef (finishBranch env ctx σ b fg syn).2.refs r = lookupRef σ.refs r := by
  unfold finishBranch
  split
  · next σ3 heq =>
    unfold git_make_ref at heq
    split at heq
    · next sha hres =>
      have h2 := congrArg Prod.snd heq
      dsimp only [] at h2
      rw [← h2]
      refine ⟨rfl, rfl, rfl, rfl, rfl, rfl, ?_⟩
      intro r h1 h2b
      show lookupRef (setRef _ ctx.refsBranch sha) r = _
      rw [lookupRef_setRef, if_neg h2b]
      show lookupRef (setRef _ ("refs/heads/" ++ b) _) r = _
      rw [lookupRef_setRef, if_neg h1]
    · exact absurd (congrArg Prod.fst heq) (by simp)
  · next e σ3 heq =>
    obtain ⟨-, h2⟩ := git_make_ref_err _ _ _ _ _ heq
    rw [h2]
    refine ⟨rfl, rfl, rfl, rfl, rfl, rfl, ?_⟩
    intro r h1 h2b
    show lookupRef (setRef _ ("refs/heads/" ++ b) _) r = _
    rw [lookupRef_setRef, if_neg h1]

/-- The graft routine changes at most the branch ref, the branch-checkpoint
ref and the worktree; every other ref and every non-ref component of the
state is preserved. -/
theorem bc_frame (env : GitOracle) (ctx : Ctx) (σ : RepoState) (b : String) :
    (subrepo_branch_create env ctx σ b).2.head = σ.head ∧
    (subrepo_branch_create env ctx σ b).2.pushLog = σ.pushLog ∧
    (subrepo_branch_create env ctx σ b).2.gitrepoFile = σ.gitrepoFile ∧
    (subrepo_branch_create env ctx σ b).2.objects = σ.objects ∧
    (subrepo_branch_create env ctx σ b).2.subdirHasFiles = σ.subdirHasFiles ∧
    (subrepo_branch_create env ctx σ b).2.subdirFrom = σ.subdirFrom ∧
    ∀ r, r ≠ ("refs/heads/" ++ b) → r ≠ ctx.refsBranch →
      lookupRef (subrepo_branch_create env ctx σ b).2.refs r = lookupRef σ.refs r := by
  unfold subrepo_branch_create
  by_cases hb : branchExistsB σ b = true
  · rw [if_pos hb]
    exact ⟨rfl, rfl, rfl, rfl, rfl, rfl, fun r h1 h2 => rfl⟩
  · rw [if_neg hb]
    by_cases hp : (ctx.subrepoParent != "") = true
    · rw [if_pos hp]
      by_cases ha : (!(env.isAncestor ctx.subrepoParent σ.head)) = true
      · rw [if_pos ha]
        exact ⟨rfl, rfl, rfl, rfl, rfl, rfl, fun r h1 h2 => rfl⟩
      · rw [if_neg ha]
        cases hl : branchLoop env ctx σ LoopAcc.init []
            (env.revListAncestryPath ctx.subrepoParent σ.head) with
        | error e =>
          exact ⟨rfl, rfl, rfl, rfl, rfl, rfl, fun r h1 h2 => rfl⟩
        | ok p =>
          obtain ⟨acc, syn0⟩ := p
          dsimp only []
          by_cases hpr : (acc.prev == "") = true
          · rw [if_pos hpr]
            exact ⟨rfl, rfl, rfl, rfl, rfl, rfl, fun r h1 h2 => rfl⟩
          · rw [if_neg hpr]
            obtain ⟨f1, f2, f3, f4, f5, f6, f7⟩ := finishBranch_frame env ctx
              { σ with refs := setRef σ.refs ("refs/heads/" ++ b) acc.prev }
              b acc.firstG syn0
            refine ⟨f1, f2, f3, f4, f5, f6, ?_⟩
            intro r h1 h2
            rw [f7 r h1 h2]
            show lookupRef (setRef _ ("refs/heads/" ++ b) _) r = _
            rw [lookupRef_setRef, if_neg h1]
    · rw [if_neg hp]
      obtain ⟨f1, f2, f3, f4, f5, f6, f7⟩ := finishBranch_frame env ctx
        { σ with refs := (setRef (setRef σ.refs ("refs/heads/" ++ b) σ.head)
            ("refs/heads/" ++ b) (env.filterSubdir σ.head)) }
        b "" []
      refine ⟨f1, f2, f3, f4, f5, f6, ?_⟩
      intro r h1 h2
      rw [f7 r h1 h2]
      show lookupRef (setRef _ ("refs/heads/" ++ b) _) r = _
      rw [lookupRef_setRef, if_neg h1]
      rw [lookupRef_setRef, if_neg h1]

/-- A nothing-to-push exit of the comparison phase deletes the transient
branch when this run created it (and only then), and performs no other
mutation: no push, no push ref, no descriptor rewrite, no host commit. -/
theorem push_compare_noop (env : GitOracle) (ctx : Ctx) (σ : RepoState)
    (b upstream : String) (newUp bc : Bool) (σ2 : RepoState)
    (h : push_compare env ctx σ b upstream newUp bc = (.nothingToPush, σ2)) :
    (bc = false ∧ σ2 = σ) ∨
    (bc = true ∧ σ2.head = σ.head ∧ σ2.pushLog = σ.pushLog ∧
     σ2.gitrepoFile = σ.gitrepoFile ∧ σ2.objects = σ.objects ∧ σ2.worktree = none ∧
     σ2.refs = eraseRef σ.refs ("refs/heads/" ++ b) ∧
     σ2.subdirHasFiles = σ.subdirHasFiles ∧ σ2.subdirFrom = σ.subdirFrom) := by
  unfold push_compare at h
  split at h
  · exact absurd (congrArg Prod.fst h) (by simp)
  · dsimp only [] at h
    split at h
    · split at h
      · -- branch was created by this run: it is deleted again
        next hbc =>
        split at h
        · exact absurd (congrArg Prod.fst h) (by simp)
        · next σ1 heq =>
          have h2 := congrArg Prod.snd h
          dsimp only [] at h2
          rw [← h2]
          obtain ⟨d1, d2, d3, d4, d5, d6, d7, d8⟩ := git_delete_branch_spec σ b σ1 heq
          exact Or.inr ⟨hbc, d1, d2, d3, d4, d5, d6, d7, d8⟩
      · next hbc =>
        have h2 := congrArg Prod.snd h
        dsimp only [] at h2
        exact Or.inl ⟨bool_not_true hbc, h2.symm⟩
    · split at h
      · exact absurd (congrArg Prod.fst h) (by simp)
      · split at h
        · exact absurd (congrArg Prod.fst h) (by simp)
        · split at h
          · exact absurd (congrArg Prod.fst h) (by simp)
          · split at h
            · exact absurd (congrArg Prod.fst h) (by simp)
            · split at h
              · exact absurd (congrArg Prod.fst h) (by simp)
              · exact absurd (congrArg Prod.fst h) (by simp)

/-- A nothing-to-push exit of push_rest leaves the push log, descriptor and
HEAD untouched, removes the transient branch and its worktree, and confines
ref changes to the branch-checkpoint ref and the transient branch ref. -/
theorem push_rest_noop (env : GitOracle) (ctx : Ctx) (σ : RepoState)
    (upstream : String) (newUp : Bool) (σ2 : RepoState)
    (h : push_rest env ctx σ upstream newUp = (.nothingToPush, σ2)) :
    σ2.pushLog = σ.pushLog ∧ σ2.gitrepoFile = σ.gitrepoFile ∧ σ2.head = σ.head ∧
    σ2.worktree = none ∧
    lookupRef σ2.refs ("refs/heads/" ++ ("subrepo/" ++ ctx.subref)) = none ∧
    ∀ r, r ≠ ctx.refsBranch → r ≠ ("refs/heads/" ++ ("subrepo/" ++ ctx.subref)) →
      lookupRef σ2.refs r = lookupRef σ.refs r := by
  unfold push_rest at h
  dsimp only [] at h
  split at h
  · exact absurd (congrArg Prod.fst h) (by simp)
  · next σ1 heq1 =>
    obtain ⟨d1, d2, d3, d4, d5, d6, d7, d8⟩ :=
      git_delete_branch_spec σ ("subrepo/" ++ ctx.subref) σ1 heq1
    split at h
    · exact absurd (congrArg Prod.fst h) (by simp)
    · next l σa heqBC =>
      have hf := bc_frame env
        (if ctx.squash = true then { ctx with subrepoParent := "HEAD^" } else ctx)
        σ1 ("subrepo/" ++ ctx.subref)
      rw [heqBC] at hf
      dsimp only [] at hf
      obtain ⟨f1, f2, f3, f4, f5, f6, f7⟩ := hf
      have hctxRB : (if ctx.squash = true then { ctx with subrepoParent := "HEAD^" }
          else ctx).refsBranch = ctx.refsBranch := by
        by_cases hsq : ctx.squash = true
        · simp [hsq]
        · simp [hsq]
      rw [hctxRB] at f7
      by_cases hjm : ((if ctx.squash = true then { ctx with subrepoParent := "HEAD^" }
          else ctx).joinMethod == "rebase") = true
      · rw [if_pos hjm] at h
        by_cases hjo : (!env.joinOk) = true
        · rw [if_pos hjo] at h
          exact absurd (congrArg Prod.fst h) (by simp)
        · rw [if_neg hjo] at h
          rcases push_compare_noop env ctx _ _ _ _ _ _ h with ⟨hbc, -⟩ | hr
          · exact absurd hbc (by simp)
          · obtain ⟨-, p1, p2, p3, p4, p5, p6, p7, p8⟩ := hr
            refine ⟨?_, ?_, ?_, p5, ?_, ?_⟩
            · rw [p2]
              show σa.pushLog = σ.pushLog
              rw [f2, d2]
            · rw [p3]
              show σa.gitrepoFile = σ.gitrepoFile
              rw [f3, d3]
            · rw [p1]
              show σa.head = σ.head
              rw [f1, d1]
            · rw [p6, lookupRef_eraseRef, if_pos rfl]
            · intro r hr1 hr2
              rw [p6, lookupRef_eraseRef, if_neg hr2]
              show lookupRef (setRef σa.refs ("refs/heads/" ++ ("subrepo/" ++ ctx.subref))
                env.joinTip) r = _
              rw [lookupRef_setRef, if_neg hr2, f7 r hr2 hr1, d6, lookupRef_eraseRef,
                if_neg hr2]
      · rw [if_neg hjm] at h
        rcases push_compare_noop env ctx _ _ _ _ _ _ h with ⟨hbc, -⟩ | hr
        · exact absurd hbc (by simp)
        · obtain ⟨-, p1, p2, p3, p4, p5, p6, p7, p8⟩ := hr
          refine ⟨?_, ?_, ?_, p5, ?_, ?_⟩
          · rw [p2, f2, d2]
          · rw [p3, f3, d3]
          · rw [p1, f1, d1]
          · rw [p6, lookupRef_eraseRef, if_pos rfl]
          · intro r hr1 hr2
            rw [p6, lookupRef_eraseRef, if_neg hr2, f7 r hr2 hr1, d6, lookupRef_eraseRef,
              if_neg hr2]

/-- C8 (amended): a push (without an explicit branch argument) that ends in
the nothing-to-push state has deleted the transient branch it created
(together with its worktree), performed no push, left the descriptor file
and the host HEAD untouched, and mutated no ref other than fetch
bookkeeping, the graft's branch-checkpoint ref and the transient branch
ref. -/
theorem c8_nothing_to_push (env : GitOracle) (ctx : Ctx) (σ σ2 : RepoState)
    (hArg : ctx.branchArg = "")
    (h : subrepo_push env ctx σ = (.nothingToPush, σ2)) :
    lookupRef σ2.refs ("refs/heads/" ++ ("subrepo/" ++ ctx.subref)) = none ∧
    σ2.worktree = none ∧
    σ2.pushLog = σ.pushLog ∧
    σ2.gitrepoFile = σ.gitrepoFile ∧
    σ2.head = σ.head ∧
    ∀ r, r ≠ ctx.refsFetch → r ≠ ctx.refsBranch →
      r ≠ ("refs/heads/" ++ ("subrepo/" ++ ctx.subref)) →
      lookupRef σ2.refs r = lookupRef σ.refs r := by
  unfold subrepo_push at h
  rw [if_pos (by rw [hArg]; rfl)] at h
  unfold subrepo_fetch at h
  by_cases hrn : (ctx.remote == "none") = true
  · rw [if_pos hrn] at h
    dsimp only [] at h
    exact absurd (congrArg Prod.fst h) (by simp)
  · rw [if_neg hrn] at h
    cases hfh : env.fetchedHead with
    | none =>
      rw [hfh] at h
      dsimp only [] at h
      by_cases hmr : env.fetchMissingRef = true
      · rw [if_pos hmr] at h
        obtain ⟨p1, p2, p3, p4, p5, p6⟩ := push_rest_noop env ctx σ "" true σ2 h
        exact ⟨p5, p4, p1, p2, p3, fun r _ hr2 hr3 => p6 r hr2 hr3⟩
      · rw [if_neg hmr] at h
        exact absurd (congrArg Prod.fst h) (by simp)
    | some u =>
      rw [hfh] at h
      dsimp only [] at h
      by_cases hpf : (!ctx.force && u != ctx.subrepoCommit) = true
      · rw [if_pos hpf] at h
        exact absurd (congrArg Prod.fst h) (by simp)
      · rw [if_neg hpf] at h
        obtain ⟨p1, p2, p3, p4, p5, p6⟩ := push_rest_noop env ctx
          { σ with refs := setRef σ.refs ctx.refsFetch u, objects := u :: σ.objects }
          u false σ2 h
        refine ⟨p5, p4, p1, p2, p3, ?_⟩
        intro r hr1 hr2 hr3
        rw [p6 r hr2 hr3]
        show lookupRef (setRef σ.refs ctx.refsFetch u) r = _
        rw [lookupRef_setRef, if_neg hr1]

/-- Counterexample for C8 as stated: a nothing-to-push push in which the
branch-checkpoint ref (not part of fetch bookkeeping) has been mutated. -/
theorem c8_counterexample :
    (subrepo_push envC8 ctxC8 state0).1 = .nothingToPush ∧
    lookupRef (subrepo_push envC8 ctxC8 state0).2.refs "refs/subrepo/x/branch" ≠
      lookupRef state0.refs "refs/subrepo/x/branch" ∧
    ("refs/subrepo/x/branch" : String) ≠ "refs/subrepo/x/fetch" := by decide

/-- Witness for C8 (amended) at a concrete nothing-to-push run. -/
theorem c8_witness :
    (subrepo_push envC8 ctxC8 state0).2.pushLog = state0.pushLog ∧
    lookupRef (subrepo_push envC8 ctxC8 state0).2.refs
      ("refs/heads/" ++ ("subrepo/" ++ ctxC8.subref)) = none := by
  have hmain := c8_nothing_to_push envC8 ctxC8 state0
    (subrepo_push envC8 ctxC8 state0).2 (by decide) (by decide)
  exact ⟨hmain.2.2.1, hmain.1⟩

/-- Code-point comparison on char lists is total. -/
theorem lexLe_total : ∀ a b : List Char, lexLe a b = true ∨ lexLe b a = true := by
  intro a
  induction a with
  | nil => intro b; exact Or.inl rfl
  | cons x xs ih =>
    intro b
    cases b with
    | nil => exact Or.inr rfl
    | cons y ys =>
      rcases lt_trichotomy x y with h | h | h
      · left
        unfold lexLe
        rw [if_pos h]
      · subst h
        rcases ih ys with h2 | h2
        · left
          unfold lexLe
          rw [if_neg (lt_irrefl x), if_pos rfl]
          exact h2
        · right
          unfold lexLe
          rw [if_neg (lt_irrefl x), if_pos rfl]
          exact h2
      · right
        unfold lexLe
        rw [if_pos h]

/-- Code-point comparison on char lists is transitive. -/
theorem lexLe_trans : ∀ a b c : List Char,
    lexLe a b = true → lexLe b c = true → lexLe a c = true := by
  intro a
  induction a with
  | nil => intro b c h1 h2; rfl
  | cons x xs ih =>
    intro b c h1 h2
    cases b with
    | nil => exact absurd h1 (by simp [lexLe])
    | cons y ys =>
      cases c with
      | nil => exact absurd h2 (by simp [lexLe])
      | cons z zs =>
        unfold lexLe at h1 h2 ⊢
        by_cases hxy : x < y
        · rw [if_pos hxy] at h1
          by_cases hyz : y < z
          · rw [if_pos (lt_trans hxy hyz)]
          · by_cases hyz2 : y = z
            · subst hyz2
              rw [if_pos hxy]
            · rw [if_neg hyz, if_neg hyz2] at h2
              exact absurd h2 (by simp)
        · by_cases hxy2 : x = y
          · subst hxy2
            rw [if_neg hxy, if_pos rfl] at h1
            by_cases hyz : x < z
            · rw [if_pos hyz]
            · by_cases hyz2 : x = z
              · subst hyz2
                rw [if_neg hyz, if_pos rfl] at h2 ⊢
                exact ih ys zs h1 h2
              · rw [if_neg hyz, if_neg hyz2] at h2
                exact absurd h2 (by simp)
          · rw [if_neg hxy, if_neg hxy2] at h1
            exact absurd h1 (by simp)

/-- Stripping the 9-character descriptor suffix from a line that ends with
it, then re-appending it, restores the line. -/
theorem pyDropLast9_append (l : String) (h : pyEndsWith l "/.gitrepo" = true) :
    pyDropLast9 l ++ "/.gitrepo" = l := by
  unfold pyEndsWith at h
  obtain ⟨t, ht⟩ := List.isSuffixOf_iff_suffix.mp h
  apply String.ext
  rw [String.data_append]
  show List.take (l.data.length - 9) l.data ++ ("/.gitrepo" : String).data = l.data
  rw [← ht, List.length_append]
  have h9 : ("/.gitrepo" : String).data.length = 9 := rfl
  rw [h9]
  have hn : t.length + 9 - 9 = t.length := by omega
  rw [hn, List.take_left]

/-- Stripping the 9-character suffix from p ++ "/.gitrepo" gives back p. -/
theorem pyDropLast9_mk (p : String) : pyDropLast9 (p ++ "/.gitrepo") = p := by
  apply String.ext
  show List.take ((p ++ "/.gitrepo").data.length - 9) (p ++ "/.gitrepo").data = p.data
  rw [String.data_append, List.length_append]
  have h9 : ("/.gitrepo" : String).data.length = 9 := rfl
  rw [h9]
  have hn : p.data.length + 9 - 9 = p.data.length := by omega
  rw [hn, List.take_left]

/-- A path is in the collected list iff its descriptor file is tracked. -/
theorem gitrepoPaths_mem (files : List String) (p : String) :
    p ∈ gitrepoPaths files ↔ (p ++ "/.gitrepo") ∈ files := by
  unfold gitrepoPaths
  rw [(List.perm_insertionSort _ _).mem_iff, List.mem_map]
  constructor
  · rintro ⟨l, hl, hpl⟩
    rw [List.mem_filter] at hl
    have hrest := pyDropLast9_append l hl.2
    rw [← hpl, hrest]
    exact hl.1
  · intro hmem
    refine ⟨p ++ "/.gitrepo", List.mem_filter.mpr ⟨hmem, ?_⟩, pyDropLast9_mk p⟩
    unfold pyEndsWith
    rw [List.isSuffixOf_iff_suffix, String.data_append]
    exact List.suffix_append _ _

/-- With --ALL the fold appends every path in order. -/
theorem foldl_add_all : ∀ (l acc : List String),
    l.foldl (add_subrepo true) acc = acc ++ l := by
  intro l
  induction l with
  | nil => intro acc; simp
  | cons a l ih =>
    intro acc
    show List.foldl (add_subrepo true) (add_subrepo true acc a) l = _
    have hstep : add_subrepo true acc a = acc ++ [a] := by
      unfold add_subrepo
      rw [if_neg (by simp)]
    rw [hstep, ih]
    simp

/-- The fold result is a sublist of acc ++ input in every mode. -/
theorem foldl_add_sublist (flag : Bool) : ∀ (l acc : List String),
    (l.foldl (add_subrepo flag) acc).Sublist (acc ++ l) := by
  intro l
  induction l with
  | nil => intro acc; simp
  | cons a l ih =>
    intro acc
    show (List.foldl (add_subrepo flag) (add_subrepo flag acc a) l).Sublist _
    by_cases hc : (!flag && acc.any (fun e => pyStartsWith a (e ++ "/"))) = true
    · have hstep : add_subrepo flag acc a = acc := by
        unfold add_subrepo
        rw [if_pos hc]
      rw [hstep]
      exact (ih acc).trans (List.Sublist.append_left (List.sublist_cons_self a l) acc)
    · have hstep : add_subrepo flag acc a = acc ++ [a] := by
        unfold add_subrepo
        rw [if_neg hc]
      rw [hstep]
      have h2 := ih (acc ++ [a])
      rw [List.append_assoc] at h2
      simpa only [List.singleton_append] using h2

/-- The fold never drops elements already collected. -/
theorem foldl_add_mem (flag : Bool) : ∀ (l acc : List String) (x : String),
    x ∈ acc → x ∈ l.foldl (add_subrepo flag) acc := by
  intro l
  induction l with
  | nil => intro acc x hx; exact hx
  | cons a l ih =>
    intro acc x hx
    show x ∈ List.foldl (add_subrepo flag) (add_subrepo flag acc a) l
    refine ih _ x ?_
    unfold add_subrepo
    split
    · exact hx
    · exact List.mem_append_left _ hx

/-- Without --ALL, the collected list never contains a nested pair. -/
theorem foldl_add_pairwise : ∀ (l acc : List String),
    acc.Pairwise (fun q p => pyStartsWith p (q ++ "/") = false) →
    (l.foldl (add_subrepo false) acc).Pairwise
      (fun q p => pyStartsWith p (q ++ "/") = false) := by
  intro l
  induction l with
  | nil => intro acc h; exact h
  | cons a l ih =>
    intro acc h
    show (List.foldl (add_subrepo false) (add_subrepo false acc a) l).Pairwise _
    refine ih _ ?_
    by_cases hc : (!false && acc.any (fun e => pyStartsWith a (e ++ "/"))) = true
    · have hstep : add_subrepo false acc a = acc := by
        unfold add_subrepo
        rw [if_pos hc]
      rw [hstep]
      exact h
    · have hstep : add_subrepo false acc a = acc ++ [a] := by
        unfold add_subrepo
        rw [if_neg hc]
      rw [hstep]
      rw [List.pairwise_append]
      refine ⟨h, List.pairwise_singleton _ _, ?_⟩
      intro q hq b hb
      rw [List.mem_singleton] at hb
      subst hb
      apply bool_not_true
      intro hqa
      apply hc
      simp only [Bool.not_false, Bool.true_and]
      exact List.any_eq_true.mpr ⟨q, hq, hqa⟩

/-- Every path the non-ALL fold skips lies under a path the fold keeps. -/
theorem foldl_add_complete : ∀ (l acc : List String) (p : String), p ∈ l →
    p ∉ l.foldl (add_subrepo false) acc →
    ∃ q ∈ l.foldl (add_subrepo false) acc, pyStartsWith p (q ++ "/") = true := by
  intro l
  induction l with
  | nil => intro acc p hp _; exact absurd hp (List.not_mem_nil p)
  | cons a l ih =>
    intro acc p hp hnot
    rcases List.mem_cons.mp hp with he | hp2
    · subst he
      by_cases hc : (!false && acc.any (fun e => pyStartsWith p (e ++ "/"))) = true
      · have hany : acc.any (fun e => pyStartsWith p (e ++ "/")) = true := by
          simpa using hc
        obtain ⟨q, hq, hqs⟩ := List.any_eq_true.mp hany
        refine ⟨q, ?_, hqs⟩
        show q ∈ List.foldl (add_subrepo false) (add_subrepo false acc p) l
        refine foldl_add_mem false l _ q ?_
        have hstep : add_subrepo false acc p = acc := by
          unfold add_subrepo
          rw [if_pos hc]
        rw [hstep]
        exact hq
      · exfalso
        apply hnot
        show p ∈ List.foldl (add_subrepo false) (add_subrepo false acc p) l
        refine foldl_add_mem false l _ p ?_
        have hstep : add_subrepo false acc p = acc ++ [p] := by
          unfold add_subrepo
          rw [if_neg hc]
        rw [hstep]
        exact List.mem_append_right _ (List.mem_singleton_self p)
    · exact ih (add_subrepo false acc a) p hp2 hnot

/-- C10: when a command runs over all tracked subrepos, the enumeration is
exactly the tracked paths ending in "/.gitrepo" with that suffix stripped,
in sorted (code-point lexicographic) path order; with --ALL every such path
is listed; without --ALL a path nested inside an already-listed subrepo's
directory is excluded — no listed path nests inside another, and every
excluded path lies under some listed one. -/
theorem c10_subrepo_enumeration (allFlag : Bool) (files : List String) :
    get_all_subrepos true files = gitrepoPaths files ∧
    (get_all_subrepos allFlag files).Sublist (gitrepoPaths files) ∧
    (gitrepoPaths files).Pairwise (fun a b => pyLe a b = true) ∧
    (∀ p, p ∈ gitrepoPaths files ↔ (p ++ "/.gitrepo") ∈ files) ∧
    (get_all_subrepos false files).Pairwise
      (fun q p => pyStartsWith p (q ++ "/") = false) ∧
    (∀ p, p ∈ gitrepoPaths files → p ∉ get_all_subrepos false files →
      ∃ q ∈ get_all_subrepos false files, pyStartsWith p (q ++ "/") = true) := by
  refine ⟨?_, ?_, ?_, gitrepoPaths_mem files, ?_, ?_⟩
  · unfold get_all_subrepos
    rw [foldl_add_all]
    rfl
  · unfold get_all_subrepos
    simpa using foldl_add_sublist allFlag (gitrepoPaths files) []
  · unfold gitrepoPaths
    haveI : IsTotal String (fun a b => pyLe a b = true) :=
      ⟨fun a b => lexLe_total a.data b.data⟩
    haveI : IsTrans String (fun a b => pyLe a b = true) :=
      ⟨fun a b c => lexLe_trans a.data b.data c.data⟩
    exact List.sorted_insertionSort _ _
  · unfold get_all_subrepos
    exact foldl_add_pairwise (gitrepoPaths files) [] List.Pairwise.nil
  · intro p hp hnp
    unfold get_all_subrepos at hnp ⊢
    exact foldl_add_complete (gitrepoPaths files) [] p hp hnp

/-- Witness for C10 at a concrete file list: the nested path "a/b" is a
collected subrepo path, is skipped without --ALL, and the enumeration
points back to the enclosing listed subrepo. -/
theorem c10_witness :
    ∃ q ∈ get_all_subrepos false filesC10, pyStartsWith "a/b" (q ++ "/") = true :=
  (c10_subrepo_enumeration false filesC10).2.2.2.2.2 "a/b" (by decide) (by decide)
